import Mathlib

/-!
Shallow embedding of the Qscape multi-objective evacuation-routing engine
(`src/backend/algorithms/`): the shared graph/cost model, the adjacency
filter, the exact solvers (Dijkstra, A*, Bellman-Ford relaxation), the
annealing ("quantum-inspired") solver, and the constraint validator /
multi-vehicle allocator.

Conventions of the embedding:
* Python `float` is modelled by `ℚ`; `float("inf")` by `⊤ : WithTop ℚ`.
  All numeric literals in the source are decimal and are mapped exactly.
* Python dicts keyed by node id are modelled by total functions or by
  association lists, with update semantics matching the source (later
  assignments win).  Lookups that would raise `KeyError` in Python are
  guarded in the theorems by well-formedness hypotheses; the corresponding
  Lean definitions use an explicit default in those (unreachable) cases.
* `heapq` on tuples is modelled by removing the lexicographically least
  element of the pending list.  In every reachable state of the two solvers
  that use it the queued tuples are pairwise distinct (Dijkstra pushes a
  node only with a strictly smaller key than any of its live entries, and
  the A* entries carry distinct counters), so the lexicographic minimum is
  unique and this model is exact.
* `while` loops are modelled by fuel-indexed recursion returning `Option`;
  `none` means the fuel bound was reached.  Theorems about a loop are
  stated for every fuel value, conditional on the run having finished.
* Randomness (`random.random`, `random.choice`, `random.randint`) is
  modelled by explicit input streams: each draw is an argument.
  `random.randint(1, m)` is modelled as `1 + i % m` for an arbitrary
  natural number `i`, which ranges over exactly the values the source can
  draw.
-/

namespace Qscape

/-! ## Data model (`src/backend/graph.py` node/edge dictionaries) -/

/-- A node record: `id`, coordinates, `zone`, `population`, flags and the
overlay scores read by `objective.calculate_edge_cost` (each `.get` default
in the source becomes the field default here). -/
structure Node where
  id : ℕ
  x : ℚ := 0
  y : ℚ := 0
  zone : String := ""
  population : ℤ := 0
  hazard : Bool := false
  blocked : Bool := false
  riskLevel : ℚ := 0
  hazardProbability : ℚ := 0
  congestionScore : ℚ := 0
deriving DecidableEq, Repr

/-- An edge record; `src`/`dst` model the `from`/`to` keys (`from` is a Lean
keyword).  `baseDistance = none` models a dict without the `base_distance`
key, in which case `calculate_edge_cost` falls back to `cost`. -/
structure Edge where
  src : ℕ
  dst : ℕ
  cost : ℚ := 0
  baseDistance : Option ℚ := none
  risk : ℚ := 0
  hazard : Bool := false
  blocked : Bool := false
deriving DecidableEq, Repr

structure GraphData where
  nodes : List Node
  edges : List Edge
deriving DecidableEq, Repr

/-- `{node["id"]: node for node in graph_data["nodes"]}` followed by a key
lookup: the last node with a given id wins, a missing key yields `none`. -/
def nodeById (g : GraphData) (i : ℕ) : Option Node :=
  g.nodes.foldl (fun acc n => if n.id = i then some n else acc) none

/-- `nodes.get(i, {}).get("blocked")`: blocked flag of a node, `false` when
the id is absent. -/
def blockedAt (g : GraphData) (i : ℕ) : Bool :=
  ((nodeById g i).map Node.blocked).getD false

/-- The key set of the node dict, in first-occurrence order. -/
def nodeIds (g : GraphData) : List ℕ :=
  (g.nodes.map Node.id).dedup

/-- `len(nodes)` for the node dict (number of distinct ids). -/
def numNodes (g : GraphData) : ℕ :=
  (nodeIds g).length

/-- Node ids are unique and every edge endpoint refers to an existing node
(the spec's `MalformedGraph` condition is excluded at load time). -/
def WellFormed (g : GraphData) : Prop :=
  (g.nodes.map Node.id).Nodup ∧
    ∀ e ∈ g.edges, (nodeById g e.src).isSome ∧ (nodeById g e.dst).isSome

instance (g : GraphData) : Decidable (WellFormed g) := by
  unfold WellFormed; infer_instance

/-! ## Objective function (`src/backend/algorithms/objective.py`) -/

/-- `ObjectiveWeights` (the `time_weight` field is only read when
`distance_weight is None`, which cannot happen for these float fields, so
it is omitted). -/
structure ObjectiveWeights where
  distanceWeight : ℚ := 1
  riskWeight : ℚ := 1/2
  hazardWeight : ℚ := 7/10
  congestionWeight : ℚ := 1/2
deriving DecidableEq, Repr

/-- `calculate_edge_cost`: weighted sum of base distance and the averaged
endpoint risk / hazard-probability / congestion scores. -/
def calculateEdgeCost (e : Edge) (fromNode toNode : Node) (w : ObjectiveWeights) : ℚ :=
  let baseDistance := e.baseDistance.getD e.cost
  let riskLevel := (fromNode.riskLevel + toNode.riskLevel) / 2
  let hazardProb := (fromNode.hazardProbability + toNode.hazardProbability) / 2
  let congestion := (fromNode.congestionScore + toNode.congestionScore) / 2
  w.distanceWeight * baseDistance + w.riskWeight * riskLevel +
    w.hazardWeight * hazardProb + w.congestionWeight * congestion

/-! ## The shared adjacency filter

`dijkstra.build_adjacency`, and the identical inline loops in `astar` and
`dynamic_programming`, keep an edge iff it is not blocked, neither endpoint
is blocked, and (in hazard-avoidance mode) nothing it touches is
hazard-flagged; the kept edge is directed `src → dst` and carries the
weighted cost.  The branch for a missing endpoint is unreachable under
`WellFormed` (the source would raise). -/
def filteredEdges (g : GraphData) (avoidHazards : Bool) (w : ObjectiveWeights) :
    List (ℕ × ℕ × ℚ) :=
  g.edges.filterMap (fun e =>
    if e.blocked then none
    else
      match nodeById g e.src, nodeById g e.dst with
      | some fn, some tn =>
          if fn.blocked || tn.blocked then none
          else if avoidHazards && (fn.hazard || tn.hazard || e.hazard) then none
          else some (e.src, e.dst, calculateEdgeCost e fn tn w)
      | _, _ => none)

/-- The per-node view of a kept-edge list: `adjacency[u]` as the ordered
list of `(neighbor, cost)` pairs. -/
def adjOf (es : List (ℕ × ℕ × ℚ)) (u : ℕ) : List (ℕ × ℚ) :=
  (es.filter (fun t => t.1 = u)).map (fun t => (t.2.1, t.2.2))

theorem mem_adjOf {es : List (ℕ × ℕ × ℚ)} {u v : ℕ} {c : ℚ} :
    (v, c) ∈ adjOf es u ↔ (u, v, c) ∈ es := by
  unfold adjOf
  simp only [List.mem_map, List.mem_filter, decide_eq_true_eq]
  constructor
  · rintro ⟨⟨a, b, d⟩, ⟨hm, rfl⟩, h⟩
    cases h
    simpa using hm
  · intro h
    exact ⟨(u, v, c), ⟨h, rfl⟩, rfl⟩

/-- Kept edges never touch a blocked node (the filter drops them). -/
theorem filteredEdges_not_blocked {g : GraphData} {avoid : Bool}
    {w : ObjectiveWeights} {u v : ℕ} {c : ℚ}
    (h : (u, v, c) ∈ filteredEdges g avoid w) :
    blockedAt g u = false ∧ blockedAt g v = false := by
  unfold filteredEdges at h
  rcases List.mem_filterMap.mp h with ⟨e, -, he⟩
  split at he
  · exact absurd he (by simp)
  · split at he
    next fn tn hfn htn =>
      split at he
      · exact absurd he (by simp)
      next h1 =>
        split at he
        · exact absurd he (by simp)
        next =>
          simp only [Option.some.injEq, Prod.mk.injEq] at he
          obtain ⟨rfl, rfl, -⟩ := he
          simp only [Bool.or_eq_true, not_or, Bool.not_eq_true] at h1
          exact ⟨by simp [blockedAt, hfn, h1.1], by simp [blockedAt, htn, h1.2]⟩
    next => exact absurd he (by simp)

/-! ## Constraint validation (`src/backend/algorithms/constraints.py`) -/

/-- A per-zone time window (`{"min": lo, "max": hi}`); the source's default
for an unknown zone is `{"min": 0, "max": 999}`. -/
structure TimeWindow where
  lo : ℚ
  hi : ℚ
deriving DecidableEq, Repr

/-- `zone_metadata` lookup with its two `.get` defaults. -/
def zoneWindow (zm : List (String × TimeWindow)) (zone : String) : TimeWindow :=
  ((zm.find? (fun p => p.1 = zone)).map Prod.snd).getD ⟨0, 999⟩

/-- The constraint configuration `{vehicle_capacity, num_vehicles,
time_limit, constraint_penalty}`. -/
structure ConstraintConfig where
  vehicleCapacity : ℤ
  numVehicles : ℕ
  timeLimit : ℚ
  constraintPenalty : ℚ := 0
deriving DecidableEq, Repr

structure CapacityViolation where
  population : ℤ
  capacity : ℤ
  overflow : ℤ
deriving DecidableEq, Repr

structure TimeWindowViolation where
  node : ℕ
  zone : String
  arrivalTime : ℚ
  window : TimeWindow
deriving DecidableEq, Repr

/-- The `violations` dict built by `ConstraintValidator.validate_solution`. -/
structure ViolationsRec where
  capacity : List CapacityViolation
  timeWindow : List TimeWindowViolation
  totalTime : Bool
  populationServed : ℤ
  populationLeft : ℤ
deriving DecidableEq, Repr

/-- `ConstraintValidator._find_edge`: first edge of the raw edge list whose
endpoints match (blocked or hazardous edges included). -/
def findEdge (g : GraphData) (a b : ℕ) : Option Edge :=
  g.edges.find? (fun e => e.src = a && e.dst = b)

/-- `sum(self.nodes[node_id].get("population", 0) for node_id in path)`;
nodes are counted with the multiplicity they have in the path.  A path id
absent from the node dict would raise in the source; here it contributes
the `.get` default `0` and the theorems assume presence. -/
def totalPopulation (g : GraphData) (path : List ℕ) : ℤ :=
  (path.map (fun i => ((nodeById g i).map Node.population).getD 0)).sum

/-- The time-window walk of `validate_solution`: check each node's zone
window at the running arrival time, then add the traversed edge's `cost`
as a time unit (nothing is added when `_find_edge` finds no edge).
Returns the violations in path order and the final elapsed time. -/
def timeWalk (g : GraphData) (zm : List (String × TimeWindow)) :
    List ℕ → ℚ → List TimeWindowViolation × ℚ
  | [], t => ([], t)
  | n :: rest, t =>
    let zone := ((nodeById g n).map Node.zone).getD ""
    let tw := zoneWindow zm zone
    let here := if t < tw.lo ∨ t > tw.hi then [⟨n, zone, t, tw⟩] else []
    let tNext :=
      match rest with
      | [] => t
      | m :: _ =>
        match findEdge g n m with
        | some e => t + e.cost
        | none => t
    let tail := timeWalk g zm rest tNext
    (here ++ tail.1, tail.2)

/-- `ConstraintValidator.validate_solution`: capacity check, time-window
walk, total-time check; returns `(is_valid, violations)`. -/
def validateSolution (g : GraphData) (config : ConstraintConfig)
    (zm : List (String × TimeWindow)) (path : List ℕ) : Bool × ViolationsRec :=
  let total := totalPopulation g path
  let cap := config.vehicleCapacity
  let capV : List CapacityViolation :=
    if total > cap then [⟨total, cap, total - cap⟩] else []
  let tw := timeWalk g zm path 0
  let totalTimeV : Bool := tw.2 > config.timeLimit
  let viols : ViolationsRec :=
    ⟨capV, tw.1, totalTimeV, min total cap, max 0 (total - cap)⟩
  (capV.isEmpty && tw.1.isEmpty && !totalTimeV, viols)

/-- `ConstraintValidator.calculate_penalty`: capacity overflow × 10, the
distance to the nearest violated window bound × 20, and 500 for a
total-time violation. -/
def calculatePenalty (v : ViolationsRec) : ℚ :=
  (v.capacity.map (fun c => (c.overflow : ℚ) * 10)).sum +
    (v.timeWindow.map
      (fun t => min |t.arrivalTime - t.window.lo| |t.arrivalTime - t.window.hi| * 20)).sum +
    (if v.totalTime then 500 else 0)

/-- `constraint_info["adjusted_cost"] = cost + penalty` as assembled by
`main.solve_hard_constraints` (classical branch) and by
`QuantumSolver.solve_constrained`; the raw cost may be `inf`. -/
def adjustedCost (cost : WithTop ℚ) (v : ViolationsRec) : WithTop ℚ :=
  cost + (calculatePenalty v : ℚ)

/-! ## Multi-vehicle allocation (`MultiVehicleRouter.plan_multi_vehicle_routes`) -/

/-- One vehicle record; `route` and `nodes` are maintained in lockstep by
the source. -/
structure Vehicle where
  id : ℕ
  route : List ℕ
  population : ℤ
  nodes : List ℕ
deriving DecidableEq, Repr

/-- The greedy assignment loop over the path's `(node_id, population)`
pairs.  The `break` when the vehicle list is full returns immediately; as
in the source, the current vehicle at that point has just been appended
(or had an empty route) and the epilogue's length check keeps it from
being appended again. -/
def planLoop (cap : ℤ) (num : ℕ) :
    List (ℕ × ℤ) → List Vehicle → Vehicle → List Vehicle × Vehicle
  | [], vs, cur => (vs, cur)
  | (nid, pop) :: rest, vs, cur =>
    if cur.population + pop ≤ cap then
      planLoop cap num rest vs ⟨cur.id, cur.route ++ [nid], cur.population + pop, cur.nodes ++ [nid]⟩
    else
      let vs' := if cur.route.isEmpty then vs else vs ++ [cur]
      if num ≤ vs'.length then (vs', cur)
      else planLoop cap num rest vs' ⟨vs'.length, [nid], pop, [nid]⟩

/-- `plan_multi_vehicle_routes`: split a single path into capacity-bounded
vehicle loads; the final partial vehicle is kept only while vehicles
remain. -/
def planMultiVehicleRoutes (g : GraphData) (config : ConstraintConfig)
    (path : List ℕ) : List Vehicle :=
  let pathPops := path.map (fun i => (i, ((nodeById g i).map Node.population).getD 0))
  let res := planLoop config.vehicleCapacity config.numVehicles pathPops [] ⟨0, [], 0, []⟩
  if res.2.route.isEmpty ∨ config.numVehicles ≤ res.1.length then res.1
  else res.1 ++ [res.2]

/-! ## Invariants of the greedy allocator -/

theorem planLoop_length_le {cap : ℤ} {num : ℕ} :
    ∀ (l : List (ℕ × ℤ)) (vs : List Vehicle) (cur : Vehicle),
      vs.length < num → (planLoop cap num l vs cur).1.length ≤ num := by
  intro l
  induction l with
  | nil => intro vs cur h; exact le_of_lt h
  | cons hd tl ih =>
    rcases hd with ⟨nid, pop⟩
    intro vs cur h
    simp only [planLoop]
    by_cases hfits : cur.population + pop ≤ cap
    · rw [if_pos hfits]
      exact ih vs _ h
    · rw [if_neg hfits]
      set vsP := if cur.route.isEmpty then vs else vs ++ [cur] with hvsP
      have hle : vsP.length ≤ vs.length + 1 := by
        rw [hvsP]; split <;> simp
      by_cases hlen : num ≤ vsP.length
      · rw [if_pos hlen]
        exact hle.trans (Nat.succ_le_of_lt h)
      · rw [if_neg hlen]
        exact ih vsP _ (lt_of_not_le hlen)

theorem planLoop_cap_le {cap : ℤ} {num : ℕ} :
    ∀ (l : List (ℕ × ℤ)) (vs : List Vehicle) (cur : Vehicle),
      (∀ p ∈ l, p.2 ≤ cap) →
      (∀ v ∈ vs, v.population ≤ cap) →
      (cur.route.isEmpty = false → cur.population ≤ cap) →
      (∀ v ∈ (planLoop cap num l vs cur).1, v.population ≤ cap) ∧
        ((planLoop cap num l vs cur).2.route.isEmpty = false →
          (planLoop cap num l vs cur).2.population ≤ cap) := by
  intro l
  induction l with
  | nil => intro vs cur _ hvs hcur; exact ⟨hvs, hcur⟩
  | cons hd tl ih =>
    rcases hd with ⟨nid, pop⟩
    intro vs cur hl hvs hcur
    have hlTl : ∀ p ∈ tl, p.2 ≤ cap := fun p hp => hl p (List.mem_cons_of_mem _ hp)
    simp only [planLoop]
    by_cases hfits : cur.population + pop ≤ cap
    · rw [if_pos hfits]
      exact ih vs _ hlTl hvs (fun _ => hfits)
    · rw [if_neg hfits]
      set vsP := if cur.route.isEmpty then vs else vs ++ [cur] with hvsP
      have hvs' : ∀ v ∈ vsP, v.population ≤ cap := by
        rw [hvsP]
        split
        · exact hvs
        next hne =>
          intro v hv
          rcases List.mem_append.mp hv with hv | hv
          · exact hvs v hv
          · rcases List.mem_singleton.mp hv with rfl
            exact hcur (by simpa using hne)
      by_cases hlen : num ≤ vsP.length
      · rw [if_pos hlen]
        exact ⟨hvs', hcur⟩
      · rw [if_neg hlen]
        exact ih vsP _ hlTl hvs' (fun _ => hl (nid, pop) (List.mem_cons_self _ _))

/-! ## Concrete scenario graphs from the spec's testable properties -/

/-- Three-node graph with populations 20, 25, 15 (spec capacity scenario). -/
def scenarioCapGraph : GraphData :=
  ⟨[{ id := 0, population := 20 }, { id := 1, population := 25 },
    { id := 2, population := 15 }], []⟩

/-- Three-node graph with populations 40, 40, 40 (spec multi-vehicle
scenario). -/
def scenarioVehGraph : GraphData :=
  ⟨[{ id := 0, population := 40 }, { id := 1, population := 40 },
    { id := 2, population := 40 }], []⟩

def scenarioCapConfig : ConstraintConfig := ⟨50, 1, 999, 0⟩

def scenarioVehConfig : ConstraintConfig := ⟨50, 2, 999, 0⟩

/-- Claim C7: `validate_solution` sums `population` over the path's nodes,
records a capacity violation with overflow `total - vehicle_capacity`
exactly when the total exceeds the capacity, and sets
`population_served = min(total, capacity)`,
`population_left = max(0, total - capacity)`; on node populations
`[20, 25, 15]` with capacity 50 this yields served 50, left 10 and a
single capacity violation of overflow 10. -/
theorem validateSolution_capacity_spec :
    (∀ (g : GraphData) (config : ConstraintConfig)
        (zm : List (String × TimeWindow)) (path : List ℕ),
      (validateSolution g config zm path).2.populationServed =
          min (totalPopulation g path) config.vehicleCapacity ∧
        (validateSolution g config zm path).2.populationLeft =
          max 0 (totalPopulation g path - config.vehicleCapacity) ∧
        (validateSolution g config zm path).2.capacity =
          (if totalPopulation g path > config.vehicleCapacity then
            [⟨totalPopulation g path, config.vehicleCapacity,
              totalPopulation g path - config.vehicleCapacity⟩]
          else [])) ∧
    (validateSolution scenarioCapGraph scenarioCapConfig [] [0, 1, 2]).2.populationServed = 50 ∧
    (validateSolution scenarioCapGraph scenarioCapConfig [] [0, 1, 2]).2.populationLeft = 10 ∧
    (validateSolution scenarioCapGraph scenarioCapConfig [] [0, 1, 2]).2.capacity =
      [⟨60, 50, 10⟩] := by
  refine ⟨fun g config zm path => ⟨rfl, rfl, rfl⟩, ?_, ?_, ?_⟩ <;> decide

/-- Claim C8: the penalty is (Σ capacity overflow) × 10 plus (Σ distance to
the nearest violated window bound) × 20 plus 500 for a total-time
violation, and the adjusted cost is the raw cost plus this penalty. -/
theorem calculatePenalty_spec :
    ∀ (raw : WithTop ℚ) (v : ViolationsRec),
      calculatePenalty v =
          ((v.capacity.map fun c => (c.overflow : ℚ)).sum) * 10 +
            ((v.timeWindow.map fun t =>
              min |t.arrivalTime - t.window.lo| |t.arrivalTime - t.window.hi|).sum) * 20 +
            (if v.totalTime then 500 else 0) ∧
        adjustedCost raw v = raw + (calculatePenalty v : ℚ) := by
  intro raw v
  refine ⟨?_, rfl⟩
  unfold calculatePenalty
  rw [← List.sum_map_mul_right, ← List.sum_map_mul_right]

/-- Claim C9 counterexample: on the spec's multi-vehicle scenario
(populations `[40, 40, 40]`, capacity 50, 2 vehicles) the allocator does
assign one 40-population node to each of the two vehicles, but the
`population_left` the system reports comes from `validate_solution` and
equals `max(0, 120 - 50) = 70`, not 40. -/
theorem planRoutes_populationLeft_cex :
    planMultiVehicleRoutes scenarioVehGraph scenarioVehConfig [0, 1, 2] =
        [⟨0, [0], 40, [0]⟩, ⟨1, [1], 40, [1]⟩] ∧
      (validateSolution scenarioVehGraph scenarioVehConfig [] [0, 1, 2]).2.populationLeft = 70 ∧
      (70 : ℤ) ≠ 40 := by
  refine ⟨?_, ?_, ?_⟩ <;> decide

/-- Claim C9 (amended): with capacity 50 and 2 vehicles on populations
`[40, 40, 40]`, vehicle 0 receives node 0 (population 40), vehicle 1
receives node 1 (population 40) and node 2's population 40 is unassigned
(total 120 minus 80 assigned); the reported `population_left`, computed by
`validate_solution` against a single vehicle's capacity, is 70. -/
theorem planRoutes_scenario :
    planMultiVehicleRoutes scenarioVehGraph scenarioVehConfig [0, 1, 2] =
        [⟨0, [0], 40, [0]⟩, ⟨1, [1], 40, [1]⟩] ∧
      totalPopulation scenarioVehGraph [0, 1, 2] -
          ((planMultiVehicleRoutes scenarioVehGraph scenarioVehConfig [0, 1, 2]).map
            Vehicle.population).sum = 40 ∧
      (validateSolution scenarioVehGraph scenarioVehConfig [] [0, 1, 2]).2.populationLeft =
        70 := by
  refine ⟨?_, ?_, ?_⟩ <;> decide

/-- Claim C10: the allocator returns at most `num_vehicles` vehicles, and
when every path node's population fits in one vehicle, every returned
vehicle's load is within `vehicle_capacity`. -/
theorem planRoutes_bounds (g : GraphData) (config : ConstraintConfig)
    (path : List ℕ) (hnum : 1 ≤ config.numVehicles)
    (hfit : ∀ i ∈ path, ((nodeById g i).map Node.population).getD 0 ≤ config.vehicleCapacity) :
    (planMultiVehicleRoutes g config path).length ≤ config.numVehicles ∧
      ∀ v ∈ planMultiVehicleRoutes g config path, v.population ≤ config.vehicleCapacity := by
  unfold planMultiVehicleRoutes
  set pathPops := path.map (fun i => (i, ((nodeById g i).map Node.population).getD 0)) with hpp
  have hl : ∀ p ∈ pathPops, p.2 ≤ config.vehicleCapacity := by
    rw [hpp]
    intro p hp
    rcases List.mem_map.mp hp with ⟨i, hi, rfl⟩
    exact hfit i hi
  have hlen := @planLoop_length_le config.vehicleCapacity config.numVehicles
    pathPops [] ⟨0, [], 0, []⟩ (by simpa using hnum)
  have hcap := @planLoop_cap_le config.vehicleCapacity config.numVehicles
    pathPops [] ⟨0, [], 0, []⟩ hl (by simp) (by simp)
  set res := planLoop config.vehicleCapacity config.numVehicles pathPops [] ⟨0, [], 0, []⟩
  by_cases hkeep : res.2.route.isEmpty = true ∨ config.numVehicles ≤ res.1.length
  · rw [if_pos hkeep]
    exact ⟨hlen, hcap.1⟩
  · rw [if_neg hkeep]
    push_neg at hkeep
    constructor
    · simpa using Nat.succ_le_of_lt hkeep.2
    · intro v hv
      rcases List.mem_append.mp hv with hv | hv
      · exact hcap.1 v hv
      · rcases List.mem_singleton.mp hv with rfl
        exact hcap.2 (by simpa using hkeep.1)

/-- Witness for C10 at the concrete multi-vehicle scenario. -/
theorem planRoutes_bounds_witness :
    1 ≤ scenarioVehConfig.numVehicles ∧
      (∀ i ∈ [0, 1, 2],
        ((nodeById scenarioVehGraph i).map Node.population).getD 0 ≤
          scenarioVehConfig.vehicleCapacity) ∧
      (planMultiVehicleRoutes scenarioVehGraph scenarioVehConfig [0, 1, 2]).length ≤
          scenarioVehConfig.numVehicles ∧
        ∀ v ∈ planMultiVehicleRoutes scenarioVehGraph scenarioVehConfig [0, 1, 2],
          v.population ≤ scenarioVehConfig.vehicleCapacity :=
  ⟨by decide, by decide,
    planRoutes_bounds scenarioVehGraph scenarioVehConfig [0, 1, 2] (by decide) (by decide)⟩

/-! ## The annealing ("quantum-inspired") solver
(`QuantumSolver._quantum_annealing_simulation` in
`src/backend/algorithms/quantum.py`) -/

/-- `nodes.get(i).get("hazard")`: hazard flag of a node (`false` for a
missing id, where the source would raise; unreachable under
`WellFormed`). -/
def hazardAt (g : GraphData) (i : ℕ) : Bool :=
  ((nodeById g i).map Node.hazard).getD false

/-- The annealing solver's adjacency filter: it drops blocked *edges* and
(in hazard-avoidance mode) hazardous edges, but — unlike the filter shared
by Dijkstra/A*/DP — it never consults the endpoints' `blocked` flags, and
it uses the raw edge `cost`. -/
def annealFilteredEdges (g : GraphData) (avoid : Bool) : List (ℕ × ℕ × ℚ) :=
  g.edges.filterMap (fun e =>
    if e.blocked then none
    else if avoid && (hazardAt g e.src || hazardAt g e.dst || e.hazard) then none
    else some (e.src, e.dst, e.cost))

/-- The solver's `path_cost`: sum the cost of the first matching adjacency
entry for each consecutive pair, `inf` as soon as a pair has none. -/
def annealPathCost (es : List (ℕ × ℕ × ℚ)) : List ℕ → WithTop ℚ
  | [] => (0 : ℚ)
  | [_] => (0 : ℚ)
  | a :: b :: rest =>
    match (adjOf es a).find? (fun p => p.1 = b) with
    | some (_, c) => (c : ℚ) + annealPathCost es (b :: rest)
    | none => ⊤

/-- `bfs_initial_path`: breadth-first search carrying whole paths; the
deque is popped at the front, neighbors are visited in adjacency order.
`some none` is Python's `None` (queue exhausted), `none` means the fuel
bound was hit (one unit per pop, so any fuel beyond the number of pops the
source performs is enough). -/
def bfsLoop (es : List (ℕ × ℕ × ℚ)) (endId : ℕ) :
    ℕ → List (ℕ × List ℕ) → List ℕ → Option (Option (List ℕ))
  | 0, _, _ => none
  | _ + 1, [], _ => some none
  | fuel + 1, (cur, path) :: rest, visited =>
    if cur = endId then some (some path)
    else
      let step := (adjOf es cur).foldl
        (fun (acc : List (ℕ × List ℕ) × List ℕ) nc =>
          if nc.1 ∈ acc.2 then acc
          else (acc.1 ++ [(nc.1, path ++ [nc.1])], acc.2 ++ [nc.1]))
        (rest, visited)
      bfsLoop es endId fuel step.1 step.2

/-- The three neighbor operators of `_generate_neighbor_path`. -/
inductive NeighborOp
  | insert
  | remove
  | swap
deriving DecidableEq, Repr

/-- One iteration's random draws: the operator choice, the two index draws
and the Metropolis draw (`random.random() < exp(-delta_e / temperature)`,
already resolved to its boolean outcome). -/
def AnnealInput := NeighborOp × ℕ × ℕ × Bool

/-- Simultaneous swap of two list positions (`p[a], p[b] = p[b], p[a]`). -/
def listSwap (p : List ℕ) (a b : ℕ) : List ℕ :=
  (p.set a (p.getD b 0)).set b (p.getD a 0)

/-- `_generate_neighbor_path`: insert a random key node at a random
interior position (paths shorter than 10 only), remove a random interior
node (length > 2 only) or swap two random interior positions (length > 2
only); otherwise the path is returned unchanged.  `keys` is
`list(adjacency.keys())`, i.e. the node ids in declaration order. -/
def genNeighborPath (keys : List ℕ) (p : List ℕ) :
    NeighborOp → ℕ → ℕ → List ℕ
  | .insert, i, j =>
    if p.length < 10 then
      if keys.isEmpty then p
      else p.insertIdx (1 + i % (p.length - 1)) (keys.getD (j % keys.length) 0)
    else p
  | .remove, i, _ =>
    if 2 < p.length then p.eraseIdx (1 + i % (p.length - 2)) else p
  | .swap, i, j =>
    if 2 < p.length then
      listSwap p (1 + i % (p.length - 2)) (1 + j % (p.length - 2))
    else p

/-- The annealing loop's mutable state. -/
structure AnnealState where
  curPath : List ℕ
  curCost : WithTop ℚ
  bestPath : Option (List ℕ)
  bestCost : WithTop ℚ
  temperature : ℚ
deriving DecidableEq, Repr

/-- The acceptance test of the loop body: take the candidate if it lowers
the current cost (`delta_e < 0`) or if the Metropolis draw
(`random.random() < exp(-delta_e / temperature)`) came up true. -/
def annealAccept (es : List (ℕ × ℕ × ℚ)) (st : AnnealState)
    (cand : List ℕ) (draw : Bool) : AnnealState :=
  if annealPathCost es cand < st.curCost ∨ draw then
    { st with curPath := cand, curCost := annealPathCost es cand } else st

/-- `if current_cost < best_cost`: refresh the best path seen so far. -/
def annealBest (st : AnnealState) : AnnealState :=
  if st.curCost < st.bestCost then
    { st with bestPath := some st.curPath, bestCost := st.curCost } else st

/-- `temperature *= cooling_rate` with the source's rate 0.95. -/
def annealCool (st : AnnealState) : AnnealState :=
  { st with temperature := st.temperature * (0.95 : ℚ) }

/-- One iteration of the annealing loop: generate a neighbor, `continue`
on a disconnected candidate (skipping acceptance, best-refresh *and* the
cooling step, as the source does), otherwise accept, refresh the best and
cool. -/
def annealStep (es : List (ℕ × ℕ × ℚ)) (keys : List ℕ)
    (st : AnnealState) (inp : AnnealInput) : AnnealState :=
  let cand := genNeighborPath keys st.curPath inp.1 inp.2.1 inp.2.2.1
  if annealPathCost es cand = ⊤ then st
  else annealCool (annealBest (annealAccept es st cand inp.2.2.2))

/-- The annealing loop over an explicit stream of random draws (the source
runs it for exactly 100 iterations). -/
def annealRun (es : List (ℕ × ℕ × ℚ)) (keys : List ℕ)
    (st : AnnealState) (inputs : List AnnealInput) : AnnealState :=
  inputs.foldl (annealStep es keys) st

/-- `_quantum_annealing_simulation`: BFS initial path (sentinel if none),
then the annealing loop; return the best feasible path seen, falling back
to the initial path. -/
def quantumAnnealSim (g : GraphData) (start endId : ℕ) (avoid : Bool)
    (bfsFuel : ℕ) (inputs : List AnnealInput) : Option (List ℕ × WithTop ℚ) :=
  let es := annealFilteredEdges g avoid
  match bfsLoop es endId bfsFuel [(start, [start])] [start] with
  | none => none
  | some none => some ([start, endId], ⊤)
  | some (some initialPath) =>
    let st0 : AnnealState := ⟨initialPath, annealPathCost es initialPath, none, ⊤, 1⟩
    let stF := annealRun es (nodeIds g) st0 inputs
    if stF.bestCost = ⊤ then some (initialPath, annealPathCost es initialPath)
    else some (stF.bestPath.getD initialPath, stF.bestCost)

/-! ## Structural facts about the neighbor generator -/

theorem length_le_insertIdx (l : List ℕ) (n x : ℕ) :
    l.length ≤ (l.insertIdx n x).length := by
  by_cases h : n ≤ l.length
  · rw [List.length_insertIdx n l h]
    omega
  · rw [List.insertIdx_of_length_lt l x n (by omega)]

/-- Every neighbor operator edits only positions ≥ 1, so the head of the
path is preserved. -/
theorem genNeighborPath_cons (keys : List ℕ) (a : ℕ) (t : List ℕ)
    (op : NeighborOp) (i j : ℕ) :
    ∃ t2, genNeighborPath keys (a :: t) op i j = a :: t2 := by
  cases op with
  | insert =>
    simp only [genNeighborPath]
    by_cases hlen : (a :: t).length < 10
    · rw [if_pos hlen]
      by_cases hk : keys.isEmpty
      · exact ⟨t, by rw [if_pos hk]⟩
      · rw [if_neg hk]
        refine ⟨t.insertIdx ((a :: t).length - 1 |> (i % ·)) (keys.getD (j % keys.length) 0), ?_⟩
        rw [Nat.add_comm 1 (i % ((a :: t).length - 1))]
        exact List.insertIdx_succ_cons ..
    · exact ⟨t, by rw [if_neg hlen]⟩
  | remove =>
    simp only [genNeighborPath]
    by_cases hlen : 2 < (a :: t).length
    · rw [if_pos hlen]
      refine ⟨t.eraseIdx (i % ((a :: t).length - 2)), ?_⟩
      rw [Nat.add_comm 1 (i % ((a :: t).length - 2))]
      exact List.eraseIdx_cons_succ ..
    · exact ⟨t, by rw [if_neg hlen]⟩
  | swap =>
    simp only [genNeighborPath]
    by_cases hlen : 2 < (a :: t).length
    · rw [if_pos hlen]
      unfold listSwap
      refine ⟨(t.set (i % ((a :: t).length - 2))
          ((a :: t).getD (1 + j % ((a :: t).length - 2)) 0)).set
          (j % ((a :: t).length - 2)) ((a :: t).getD (1 + i % ((a :: t).length - 2)) 0), ?_⟩
      rw [Nat.add_comm 1 (i % ((a :: t).length - 2)),
        Nat.add_comm 1 (j % ((a :: t).length - 2))]
      rw [List.set_cons_succ, List.set_cons_succ]
    · exact ⟨t, by rw [if_neg hlen]⟩

/-- No neighbor operator shrinks a path below two nodes. -/
theorem genNeighborPath_length (keys : List ℕ) (p : List ℕ)
    (op : NeighborOp) (i j : ℕ) (h2 : 2 ≤ p.length) :
    2 ≤ (genNeighborPath keys p op i j).length := by
  cases op with
  | insert =>
    simp only [genNeighborPath]
    split
    · split
      · exact h2
      · exact h2.trans (length_le_insertIdx ..)
    · exact h2
  | remove =>
    simp only [genNeighborPath]
    split
    next hlen =>
      rw [List.length_eraseIdx]
      split <;> omega
    · exact h2
  | swap =>
    simp only [genNeighborPath]
    split
    · unfold listSwap
      simpa using h2
    · exact h2

/-! ## Claim C1: the annealing solver routes through blocked nodes -/

/-- A line `0 → 1 → 2` whose middle node is blocked. -/
def blockedMidGraph : GraphData :=
  ⟨[{ id := 0 }, { id := 1, blocked := true }, { id := 2 }],
    [{ src := 0, dst := 1, cost := 1 }, { src := 1, dst := 2, cost := 1 }]⟩

/-- The annealing adjacency of `blockedMidGraph`: both edges survive
although node 1 is blocked. -/
def lineAdj : List (ℕ × ℕ × ℚ) := [(0, 1, 1), (1, 2, 1)]

theorem annealFilteredEdges_blockedMid (avoid : Bool) :
    annealFilteredEdges blockedMidGraph avoid = lineAdj := by
  cases avoid <;> decide

/-- In `lineAdj`, a path out of node 0 with finite cost continues to
node 1. -/
theorem lineAdj_first_step (b : ℕ) (t : List ℕ)
    (h : annealPathCost lineAdj (0 :: b :: t) ≠ ⊤) : b = 1 := by
  by_contra hb
  apply h
  have h0 : adjOf lineAdj 0 = [(1, 1)] := by decide
  have hfind : (adjOf lineAdj 0).find? (fun p => p.1 = b) = none := by
    rw [h0, List.find?_cons_of_neg, List.find?_nil]
    simpa using fun h1 => hb h1.symm
  simp only [annealPathCost, hfind]

/-- A finite-cost path of length ≥ 2 out of node 0 passes through the
blocked node 1. -/
theorem lineAdj_mem_one (p : List ℕ) (hh : p.head? = some 0)
    (h2 : 2 ≤ p.length) (hc : annealPathCost lineAdj p ≠ ⊤) : 1 ∈ p := by
  match p, hh with
  | a :: t, hh =>
    have ha : a = 0 := by simpa using hh
    subst ha
    match t, h2 with
    | b :: t2, _ =>
      have := lineAdj_first_step b t2 hc
      subst this
      simp

/-- The invariant the annealing loop preserves on `lineAdj`: the current
path starts at 0, has at least two nodes, its recorded cost is its actual
finite cost, and any best path so far satisfies the same. -/
def LineInv (st : AnnealState) : Prop :=
  st.curPath.head? = some 0 ∧ 2 ≤ st.curPath.length ∧
    st.curCost = annealPathCost lineAdj st.curPath ∧ st.curCost ≠ ⊤ ∧
    ∀ p, st.bestPath = some p →
      p.head? = some 0 ∧ 2 ≤ p.length ∧ annealPathCost lineAdj p ≠ ⊤

theorem annealStep_lineInv (keys : List ℕ) (st : AnnealState)
    (inp : AnnealInput) (h : LineInv st) :
    LineInv (annealStep lineAdj keys st inp) := by
  obtain ⟨hh, h2, hcost, hfin, hbest⟩ := h
  unfold annealStep
  set cand := genNeighborPath keys st.curPath inp.1 inp.2.1 inp.2.2.1 with hcand
  by_cases hcc : annealPathCost lineAdj cand = ⊤
  · rw [if_pos hcc]
    exact ⟨hh, h2, hcost, hfin, hbest⟩
  · rw [if_neg hcc]
    have hcandHead : cand.head? = some 0 := by
      match hp : st.curPath, hh with
      | a :: t, hh =>
        have ha : a = 0 := by simpa [hp] using hh
        subst ha
        obtain ⟨t2, ht2⟩ := genNeighborPath_cons keys 0 t inp.1 inp.2.1 inp.2.2.1
        rw [hcand, hp, ht2]
        rfl
    have hcandLen : 2 ≤ cand.length := hcand ▸ genNeighborPath_length keys st.curPath _ _ _ h2
    set st1 := annealAccept lineAdj st cand inp.2.2.2 with hst1
    have hst1inv : st1.curPath.head? = some 0 ∧ 2 ≤ st1.curPath.length ∧
        st1.curCost = annealPathCost lineAdj st1.curPath ∧ st1.curCost ≠ ⊤ ∧
        st1.bestPath = st.bestPath := by
      rw [hst1]
      unfold annealAccept
      split
      · exact ⟨hcandHead, hcandLen, rfl, hcc, rfl⟩
      · exact ⟨hh, h2, hcost, hfin, rfl⟩
    obtain ⟨g1, g2, g3, g4, g5⟩ := hst1inv
    have hbest1 : ∀ p, st1.bestPath = some p →
        p.head? = some 0 ∧ 2 ≤ p.length ∧ annealPathCost lineAdj p ≠ ⊤ := by
      intro p hp
      exact hbest p (g5 ▸ hp)
    unfold annealCool annealBest LineInv
    split
    · exact ⟨g1, g2, g3, g4, fun p hp => by
        simp only [Option.some.injEq] at hp
        exact hp ▸ ⟨g1, g2, g3 ▸ g4⟩⟩
    · exact ⟨g1, g2, g3, g4, hbest1⟩

theorem annealRun_lineInv (keys : List ℕ) (st : AnnealState)
    (inputs : List AnnealInput) (h : LineInv st) :
    LineInv (annealRun lineAdj keys st inputs) := by
  induction inputs generalizing st with
  | nil => exact h
  | cons inp rest ih => exact ih _ (annealStep_lineInv keys st inp h)

theorem bfs_line (k : ℕ) :
    bfsLoop lineAdj 2 (k + 3) [(0, [0])] [0] = some (some [0, 1, 2]) := by
  have h1 : bfsLoop lineAdj 2 (k + 3) [(0, [0])] [0] =
      bfsLoop lineAdj 2 (k + 2) [(1, [0, 1])] [0, 1] := rfl
  have h2 : bfsLoop lineAdj 2 (k + 2) [(1, [0, 1])] [0, 1] =
      bfsLoop lineAdj 2 (k + 1) [(2, [0, 1, 2])] [0, 1, 2] := rfl
  have h3 : bfsLoop lineAdj 2 (k + 1) [(2, [0, 1, 2])] [0, 1, 2] =
      some (some [0, 1, 2]) := rfl
  rw [h1, h2, h3]

theorem bfs_line_cases (fuel : ℕ) :
    bfsLoop lineAdj 2 fuel [(0, [0])] [0] = none ∨
      bfsLoop lineAdj 2 fuel [(0, [0])] [0] = some (some [0, 1, 2]) := by
  match fuel with
  | 0 => exact Or.inl rfl
  | 1 => exact Or.inl (by decide)
  | 2 => exact Or.inl (by decide)
  | (k + 3) => exact Or.inr (bfs_line k)

/-- Claim C1 (code bug at the annealing solver): on the line `0 → 1 → 2`
with node 1 blocked, every terminating run of
`_quantum_annealing_simulation` — whatever the hazard-avoidance flag and
whatever the random draws — returns a path through the blocked node 1,
while the filter shared by Dijkstra/A*/DP keeps no edge of this graph at
all (so the claimed invariant fails exactly because this solver's
adjacency never consults node `blocked` flags). -/
theorem quantumAnneal_blocked (avoid : Bool) (bfsFuel : ℕ)
    (inputs : List AnnealInput) (r : List ℕ × WithTop ℚ)
    (hr : quantumAnnealSim blockedMidGraph 0 2 avoid bfsFuel inputs = some r) :
    blockedAt blockedMidGraph 1 = true ∧ 1 ∈ r.1 ∧
      ∀ w : ObjectiveWeights, filteredEdges blockedMidGraph avoid w = [] := by
  refine ⟨by decide, ?_, fun w => rfl⟩
  unfold quantumAnnealSim at hr
  rw [annealFilteredEdges_blockedMid avoid] at hr
  simp only at hr
  rcases bfs_line_cases bfsFuel with hb | hb
  · rw [hb] at hr
    exact absurd hr (by simp)
  · rw [hb] at hr
    simp only at hr
    set stF := annealRun lineAdj (nodeIds blockedMidGraph)
      ⟨[0, 1, 2], annealPathCost lineAdj [0, 1, 2], none, ⊤, 1⟩ inputs with hstF
    have hinv : LineInv stF := by
      rw [hstF]
      refine annealRun_lineInv _ _ _ ⟨rfl, by decide, rfl, by decide, ?_⟩
      intro p hp
      exact absurd hp (by simp)
    by_cases hbc : stF.bestCost = ⊤
    · rw [if_pos hbc] at hr
      rw [← Option.some.inj hr]
      decide
    · rw [if_neg hbc] at hr
      obtain ⟨-, -, -, -, hbest⟩ := hinv
      rcases hb2 : stF.bestPath with _ | p
      · rw [hb2] at hr
        rw [← Option.some.inj hr]
        simp
      · rw [hb2] at hr
        obtain ⟨ph, pl, pc⟩ := hbest p hb2
        rw [← Option.some.inj hr]
        simpa using lineAdj_mem_one p ph pl pc

/-- Witness run for C1's theorem: with no annealing iterations the solver
returns the BFS path `[0, 1, 2]` straight through the blocked node. -/
theorem quantumAnneal_blocked_witness :
    quantumAnnealSim blockedMidGraph 0 2 false 10 [] =
        some ([0, 1, 2], annealPathCost lineAdj [0, 1, 2]) ∧
      blockedAt blockedMidGraph 1 = true ∧ (1 : ℕ) ∈ [0, 1, 2] :=
  ⟨rfl,
    (quantumAnneal_blocked false 10 [] ([0, 1, 2], annealPathCost lineAdj [0, 1, 2]) rfl).1,
    ((quantumAnneal_blocked false 10 [] ([0, 1, 2], annealPathCost lineAdj [0, 1, 2])
      rfl).2).1⟩

/-! ## Claim C6: the annealing acceptance rule and temperature schedule -/

/-- Count, along a run, the iterations whose generated candidate is
connected (finite cost); only these run the cooling step. -/
def finiteCandCount (es : List (ℕ × ℕ × ℚ)) (keys : List ℕ) :
    AnnealState → List AnnealInput → ℕ
  | _, [] => 0
  | st, inp :: rest =>
    (if annealPathCost es (genNeighborPath keys st.curPath inp.1 inp.2.1 inp.2.2.1) = ⊤
      then 0 else 1) + finiteCandCount es keys (annealStep es keys st inp) rest

theorem annealAccept_temperature (es : List (ℕ × ℕ × ℚ)) (st : AnnealState)
    (cand : List ℕ) (draw : Bool) :
    (annealAccept es st cand draw).temperature = st.temperature := by
  unfold annealAccept
  split <;> rfl

theorem annealBest_temperature (st : AnnealState) :
    (annealBest st).temperature = st.temperature := by
  unfold annealBest
  split <;> rfl

theorem annealCool_temperature (st : AnnealState) :
    (annealCool st).temperature = st.temperature * (0.95 : ℚ) := rfl

theorem annealCool_curPath (st : AnnealState) :
    (annealCool st).curPath = st.curPath := rfl

theorem annealBest_curPath (st : AnnealState) :
    (annealBest st).curPath = st.curPath := by
  unfold annealBest
  split <;> rfl

theorem annealStep_temperature (es : List (ℕ × ℕ × ℚ)) (keys : List ℕ)
    (st : AnnealState) (inp : AnnealInput) :
    (annealStep es keys st inp).temperature =
      if annealPathCost es (genNeighborPath keys st.curPath inp.1 inp.2.1 inp.2.2.1) = ⊤
      then st.temperature else st.temperature * (0.95 : ℚ) := by
  unfold annealStep
  dsimp only
  split
  · rfl
  · rw [annealCool_temperature, annealBest_temperature, annealAccept_temperature]

/-- Claim C6 (amended): a connected candidate is accepted unconditionally
when it lowers the current cost and otherwise exactly when the Metropolis
draw (`random.random() < exp(-Δcost/temperature)`) succeeds; the
temperature starts at 1.0 and is multiplied by 0.95 at the end of every
iteration whose candidate is connected, while an iteration whose
candidate is disconnected `continue`s and leaves it unchanged — so after
any run it equals `0.95 ^ (number of connected candidates)`, not
`0.95 ^ (number of iterations)`. -/
theorem annealRun_accept_cooling :
    (∀ (es : List (ℕ × ℕ × ℚ)) (keys : List ℕ) (st : AnnealState)
        (inputs : List AnnealInput),
      (annealRun es keys st inputs).temperature =
        st.temperature * (0.95 : ℚ) ^ finiteCandCount es keys st inputs) ∧
    (∀ (es : List (ℕ × ℕ × ℚ)) (keys : List ℕ) (st : AnnealState)
        (op : NeighborOp) (i j : ℕ) (draw : Bool),
      annealPathCost es (genNeighborPath keys st.curPath op i j) ≠ ⊤ →
        (annealPathCost es (genNeighborPath keys st.curPath op i j) < st.curCost →
          (annealStep es keys st (op, i, j, draw)).curPath =
            genNeighborPath keys st.curPath op i j) ∧
        (¬annealPathCost es (genNeighborPath keys st.curPath op i j) < st.curCost →
          (annealStep es keys st (op, i, j, true)).curPath =
              genNeighborPath keys st.curPath op i j ∧
            (annealStep es keys st (op, i, j, false)).curPath = st.curPath)) := by
  constructor
  · intro es keys st inputs
    induction inputs generalizing st with
    | nil => simp [annealRun, finiteCandCount]
    | cons inp rest ih =>
      show (annealRun es keys (annealStep es keys st inp) rest).temperature = _
      rw [ih, annealStep_temperature]
      show _ = st.temperature * (0.95 : ℚ) ^ ((if _ then 0 else 1) + _)
      split
      · ring
      · rw [pow_add, pow_one]
        ring
  · intro es keys st op i j draw hfin
    constructor
    · intro himp
      unfold annealStep
      dsimp only
      rw [if_neg hfin, annealCool_curPath, annealBest_curPath]
      unfold annealAccept
      rw [if_pos (Or.inl himp)]
    · intro himp
      constructor
      · unfold annealStep
        dsimp only
        rw [if_neg hfin, annealCool_curPath, annealBest_curPath]
        unfold annealAccept
        rw [if_pos (Or.inr rfl)]
      · unfold annealStep
        dsimp only
        rw [if_neg hfin, annealCool_curPath, annealBest_curPath]
        unfold annealAccept
        rw [if_neg (by simpa using himp)]

/-- The unblocked line `0 → 1 → 2` (both edges cost 1). -/
def lineGraph : GraphData :=
  ⟨[{ id := 0 }, { id := 1 }, { id := 2 }],
    [{ src := 0, dst := 1, cost := 1 }, { src := 1, dst := 2, cost := 1 }]⟩

theorem annealFilteredEdges_line (avoid : Bool) :
    annealFilteredEdges lineGraph avoid = lineAdj := by
  cases avoid <;> decide

theorem foldl_replicate_fixed {α β : Type} (f : α → β → α) (s : α) (x : β)
    (h : f s x = s) : ∀ n, List.foldl f s (List.replicate n x) = s := by
  intro n
  induction n with
  | zero => rfl
  | succ k ih => rw [List.replicate_succ, List.foldl_cons, h, ih]

/-- Claim C6 counterexample: on the line graph the source's initial state
(BFS path `[0, 1, 2]`, temperature 1.0) with the `remove` operator drawn
every time generates the disconnected candidate `[0, 2]` in all 100
iterations, so the temperature after the run is still 1, not
`0.95 ^ 100`. -/
theorem annealTemperature_cex :
    annealFilteredEdges lineGraph false = lineAdj ∧
      bfsLoop lineAdj 2 10 [(0, [0])] [0] = some (some [0, 1, 2]) ∧
      genNeighborPath [0, 1, 2] [0, 1, 2] NeighborOp.remove 0 0 = [0, 2] ∧
      annealPathCost lineAdj [0, 2] = ⊤ ∧
      (annealRun lineAdj [0, 1, 2]
          ⟨[0, 1, 2], annealPathCost lineAdj [0, 1, 2], none, ⊤, 1⟩
          (List.replicate 100 (NeighborOp.remove, 0, 0, false))).temperature = 1 ∧
      (1 : ℚ) ≠ (0.95 : ℚ) ^ 100 := by
  refine ⟨by decide, rfl, by decide, by decide, ?_, ?_⟩
  · have hstep : annealStep lineAdj [0, 1, 2]
        ⟨[0, 1, 2], annealPathCost lineAdj [0, 1, 2], none, ⊤, 1⟩
        (NeighborOp.remove, 0, 0, false) =
        ⟨[0, 1, 2], annealPathCost lineAdj [0, 1, 2], none, ⊤, 1⟩ := rfl
    rw [show (annealRun lineAdj [0, 1, 2]
        ⟨[0, 1, 2], annealPathCost lineAdj [0, 1, 2], none, ⊤, 1⟩
        (List.replicate 100 (NeighborOp.remove, 0, 0, false))) =
        List.foldl (annealStep lineAdj [0, 1, 2])
          ⟨[0, 1, 2], annealPathCost lineAdj [0, 1, 2], none, ⊤, 1⟩
          (List.replicate 100 (NeighborOp.remove, 0, 0, false)) from rfl,
      foldl_replicate_fixed _ _ _ hstep 100]
  · intro h
    have hlt : (0.95 : ℚ) ^ 100 < 1 :=
      pow_lt_one₀ (by norm_num) (by norm_num) (by norm_num)
    rw [← h] at hlt
    exact lt_irrefl _ hlt

/-- Witness for the amended C6 theorem: the `swap` operator at interior
position 1 maps `[0, 1, 2]` to itself, a connected candidate, which is
accepted unconditionally since its cost 2 is below the current cost 5. -/
theorem annealRun_accept_cooling_witness :
    annealPathCost lineAdj (genNeighborPath [0, 1, 2] [0, 1, 2] NeighborOp.swap 0 0) ≠ ⊤ ∧
      annealPathCost lineAdj (genNeighborPath [0, 1, 2] [0, 1, 2] NeighborOp.swap 0 0) <
        (AnnealState.mk [0, 1, 2] ((5 : ℚ) : WithTop ℚ) none ⊤ 1).curCost ∧
      (annealStep lineAdj [0, 1, 2] ⟨[0, 1, 2], ((5 : ℚ) : WithTop ℚ), none, ⊤, 1⟩
          (NeighborOp.swap, 0, 0, false)).curPath =
        genNeighborPath [0, 1, 2] [0, 1, 2] NeighborOp.swap 0 0 := by
  have h1 : annealPathCost lineAdj (genNeighborPath [0, 1, 2] [0, 1, 2]
      NeighborOp.swap 0 0) = ((2 : ℚ) : WithTop ℚ) := by
    have hg : genNeighborPath [0, 1, 2] [0, 1, 2] NeighborOp.swap 0 0 = [0, 1, 2] := by decide
    rw [hg]
    show ((1 : ℚ) : WithTop ℚ) + (((1 : ℚ) : WithTop ℚ) + ((0 : ℚ) : WithTop ℚ)) = _
    rw [← WithTop.coe_add, ← WithTop.coe_add]
    norm_num
  have h2 : ((2 : ℚ) : WithTop ℚ) < ((5 : ℚ) : WithTop ℚ) := by
    exact_mod_cast (by norm_num : (2 : ℚ) < 5)
  refine ⟨by rw [h1]; exact WithTop.coe_ne_top, by rw [h1]; exact h2, ?_⟩
  exact (annealRun_accept_cooling.2 lineAdj [0, 1, 2]
      ⟨[0, 1, 2], ((5 : ℚ) : WithTop ℚ), none, ⊤, 1⟩ NeighborOp.swap 0 0 false
      (by rw [h1]; exact WithTop.coe_ne_top)).1
    (by rw [h1]; exact h2)

/-! ## The heap model

`heapq.heappop` removes the least tuple under lexicographic comparison.
In every state the two solvers reach, the queued tuples are pairwise
distinct — Dijkstra pushes a node only together with a strict decrease of
its recorded distance, and the A* entries carry distinct counters — so
the minimum is unique and "remove the least element" is an exact model of
the binary heap. -/

def popMinBy {α : Type} (le : α → α → Bool) : List α → Option (α × List α)
  | [] => none
  | x :: xs =>
    match popMinBy le xs with
    | none => some (x, [])
    | some (m, rest) => if le x m then some (x, xs) else some (m, x :: rest)

theorem popMinBy_none {α : Type} (le : α → α → Bool) (l : List α) :
    popMinBy le l = none ↔ l = [] := by
  cases l with
  | nil => simp [popMinBy]
  | cons x xs =>
    simp only [popMinBy]
    constructor
    · intro h
      exfalso
      cases hx : popMinBy le xs with
      | none => rw [hx] at h; exact absurd h (by simp)
      | some p =>
        rw [hx] at h
        rcases p with ⟨m, rest⟩
        by_cases hle : le x m <;> simp [hle] at h
    · intro h
      cases h

theorem popMinBy_perm {α : Type} (le : α → α → Bool) :
    ∀ (l : List α) (m : α) (r : List α),
      popMinBy le l = some (m, r) → l.Perm (m :: r) := by
  intro l
  induction l with
  | nil => intro m r h; cases h
  | cons x xs ih =>
    intro m r h
    simp only [popMinBy] at h
    cases hx : popMinBy le xs with
    | none =>
      rw [hx] at h
      have hxs : xs = [] := (popMinBy_none le xs).mp hx
      simp only [Option.some.injEq, Prod.mk.injEq] at h
      obtain ⟨rfl, rfl⟩ := h
      rw [hxs]
    | some p =>
      rcases p with ⟨m1, rest⟩
      rw [hx] at h
      by_cases hle : le x m1
      · simp only [hle, if_true, Option.some.injEq, Prod.mk.injEq] at h
        obtain ⟨rfl, rfl⟩ := h
        exact List.Perm.refl _
      · simp only [hle, if_false, Option.some.injEq, Prod.mk.injEq] at h
        obtain ⟨rfl, rfl⟩ := h
        exact ((ih m rest hx).cons x).trans (List.Perm.swap m x rest)

theorem popMinBy_min {α : Type} (le : α → α → Bool)
    (htot : ∀ a b, le a b = true ∨ le b a = true)
    (htrans : ∀ a b c, le a b = true → le b c = true → le a c = true) :
    ∀ (l : List α) (m : α) (r : List α),
      popMinBy le l = some (m, r) → ∀ e ∈ l, le m e = true := by
  intro l
  induction l with
  | nil => intro m r h; cases h
  | cons x xs ih =>
    intro m r h e he
    simp only [popMinBy] at h
    cases hx : popMinBy le xs with
    | none =>
      rw [hx] at h
      have hxs : xs = [] := (popMinBy_none le xs).mp hx
      simp only [Option.some.injEq, Prod.mk.injEq] at h
      obtain ⟨rfl, -⟩ := h
      rcases List.mem_cons.mp he with rfl | he2
      · rcases htot e e with h1 | h1 <;> exact h1
      · rw [hxs] at he2; cases he2
    | some p =>
      rcases p with ⟨m1, rest⟩
      rw [hx] at h
      by_cases hle : le x m1
      · simp only [hle, if_true, Option.some.injEq, Prod.mk.injEq] at h
        obtain ⟨rfl, -⟩ := h
        rcases List.mem_cons.mp he with rfl | he2
        · rcases htot e e with h1 | h1 <;> exact h1
        · exact htrans _ _ _ hle (ih m1 rest hx e he2)
      · simp only [hle, if_false, Option.some.injEq, Prod.mk.injEq] at h
        obtain ⟨rfl, -⟩ := h
        rcases List.mem_cons.mp he with rfl | he2
        · rcases htot e m with h1 | h1
          · exact absurd h1 hle
          · exact h1
        · exact ih m rest hx e he2

/-- Lexicographic comparison of Dijkstra's `(distance, node_id)` heap
tuples. -/
def pairLeB (a b : ℚ × ℕ) : Bool :=
  decide (a.1 < b.1) || (decide (a.1 = b.1) && decide (a.2 ≤ b.2))

/-- Lexicographic comparison of A*'s `(f_score, counter, node_id)` heap
tuples. -/
def tripLeB (a b : WithTop ℚ × ℕ × ℕ) : Bool :=
  decide (a.1 < b.1) ||
    (decide (a.1 = b.1) &&
      (decide (a.2.1 < b.2.1) || (decide (a.2.1 = b.2.1) && decide (a.2.2 ≤ b.2.2))))

theorem pairLeB_total (a b : ℚ × ℕ) : pairLeB a b = true ∨ pairLeB b a = true := by
  unfold pairLeB
  rcases lt_trichotomy a.1 b.1 with h | h | h
  · left; simp [h]
  · rcases le_total a.2 b.2 with h2 | h2
    · left; simp [h, h2]
    · right; simp [h.symm, h2]
  · right; simp [h]

theorem pairLeB_trans (a b c : ℚ × ℕ) (h1 : pairLeB a b = true)
    (h2 : pairLeB b c = true) : pairLeB a c = true := by
  unfold pairLeB at *
  simp only [Bool.or_eq_true, Bool.and_eq_true, decide_eq_true_eq] at *
  rcases h1 with h1 | ⟨h1, h1b⟩ <;> rcases h2 with h2 | ⟨h2, h2b⟩
  · exact Or.inl (h1.trans h2)
  · exact Or.inl (h2 ▸ h1)
  · exact Or.inl (h1 ▸ h2)
  · exact Or.inr ⟨h1.trans h2, h1b.trans h2b⟩

theorem tripLeB_total (a b : WithTop ℚ × ℕ × ℕ) :
    tripLeB a b = true ∨ tripLeB b a = true := by
  unfold tripLeB
  rcases lt_trichotomy a.1 b.1 with h | h | h
  · left; simp [h]
  · rcases lt_trichotomy a.2.1 b.2.1 with h2 | h2 | h2
    · left; simp [h, h2]
    · rcases le_total a.2.2 b.2.2 with h3 | h3
      · left; simp [h, h2, h3]
      · right; simp [h.symm, h2.symm, h3]
    · right; simp [h.symm, h2]
  · right; simp [h]

theorem tripLeB_trans (a b c : WithTop ℚ × ℕ × ℕ) (h1 : tripLeB a b = true)
    (h2 : tripLeB b c = true) : tripLeB a c = true := by
  unfold tripLeB at *
  simp only [Bool.or_eq_true, Bool.and_eq_true, decide_eq_true_eq] at *
  rcases h1 with h1 | ⟨h1, h1b⟩ <;> rcases h2 with h2 | ⟨h2, h2b⟩
  · exact Or.inl (h1.trans h2)
  · exact Or.inl (h2 ▸ h1)
  · exact Or.inl (h1 ▸ h2)
  · refine Or.inr ⟨h1.trans h2, ?_⟩
    rcases h1b with h1b | ⟨h1b, h1c⟩ <;> rcases h2b with h2b | ⟨h2b, h2c⟩
    · exact Or.inl (h1b.trans h2b)
    · exact Or.inl (h2b ▸ h1b)
    · exact Or.inl (h1b ▸ h2b)
    · exact Or.inr ⟨h1b.trans h2b, h1c.trans h2c⟩

/-! ## Walks in a filtered edge list

The yardstick for the exact solvers: a walk from `v` is the list of its
successive `(next node, edge cost)` steps, each step taken from the kept
edge list. -/

inductive WalkSteps (E : List (ℕ × ℕ × ℚ)) : ℕ → List (ℕ × ℚ) → Prop
  | nil (v : ℕ) : WalkSteps E v []
  | cons {v w : ℕ} {c : ℚ} {rest : List (ℕ × ℚ)} :
      (v, w, c) ∈ E → WalkSteps E w rest → WalkSteps E v ((w, c) :: rest)

/-- The node a walk of the given steps ends at. -/
def stepsEnd (v : ℕ) (steps : List (ℕ × ℚ)) : ℕ :=
  (steps.map Prod.fst).getLastD v

/-- The total cost of the steps. -/
def stepsCost (steps : List (ℕ × ℚ)) : ℚ :=
  (steps.map Prod.snd).sum

/-- A walk from `s` to `v` of cost `q` exists. -/
def WalkCost (E : List (ℕ × ℕ × ℚ)) (s v : ℕ) (q : ℚ) : Prop :=
  ∃ steps, WalkSteps E s steps ∧ stepsEnd s steps = v ∧ stepsCost steps = q

/-- `v` is reachable from `s` through the kept edges. -/
def HasWalk (E : List (ℕ × ℕ × ℚ)) (s v : ℕ) : Prop :=
  ∃ q, WalkCost E s v q

theorem stepsEnd_nil (v : ℕ) : stepsEnd v [] = v := rfl

theorem stepsEnd_cons (v w : ℕ) (c : ℚ) (rest : List (ℕ × ℚ)) :
    stepsEnd v ((w, c) :: rest) = stepsEnd w rest := by
  unfold stepsEnd
  rw [List.map_cons, List.getLastD_cons]

theorem stepsCost_cons (w : ℕ) (c : ℚ) (rest : List (ℕ × ℚ)) :
    stepsCost ((w, c) :: rest) = c + stepsCost rest := by
  unfold stepsCost
  simp

theorem stepsEnd_append (v : ℕ) (s1 s2 : List (ℕ × ℚ)) :
    stepsEnd v (s1 ++ s2) = stepsEnd (stepsEnd v s1) s2 := by
  induction s1 generalizing v with
  | nil => rfl
  | cons p rest ih =>
    rcases p with ⟨w, c⟩
    rw [List.cons_append, stepsEnd_cons, stepsEnd_cons, ih]

theorem stepsCost_append (s1 s2 : List (ℕ × ℚ)) :
    stepsCost (s1 ++ s2) = stepsCost s1 + stepsCost s2 := by
  unfold stepsCost
  simp

theorem walkSteps_append {E : List (ℕ × ℕ × ℚ)} {v : ℕ} {s1 s2 : List (ℕ × ℚ)}
    (h1 : WalkSteps E v s1) (h2 : WalkSteps E (stepsEnd v s1) s2) :
    WalkSteps E v (s1 ++ s2) := by
  induction h1 with
  | nil v => exact h2
  | cons he hw ih =>
    exact WalkSteps.cons he (ih (by rwa [stepsEnd_cons] at h2))

theorem walkSteps_append_inv {E : List (ℕ × ℕ × ℚ)} {v : ℕ} {s1 s2 : List (ℕ × ℚ)}
    (h : WalkSteps E v (s1 ++ s2)) :
    WalkSteps E v s1 ∧ WalkSteps E (stepsEnd v s1) s2 := by
  induction s1 generalizing v with
  | nil => exact ⟨WalkSteps.nil v, h⟩
  | cons p rest ih =>
    rcases p with ⟨w, c⟩
    cases h with
    | cons he hw =>
      obtain ⟨ha, hb⟩ := ih hw
      exact ⟨WalkSteps.cons he ha, by rwa [stepsEnd_cons]⟩

/-- Extend a walk by one kept edge at its end. -/
theorem walkCost_extend {E : List (ℕ × ℕ × ℚ)} {s u w : ℕ} {q c : ℚ}
    (h : WalkCost E s u q) (he : (u, w, c) ∈ E) : WalkCost E s w (q + c) := by
  obtain ⟨steps, hw, hend, hcost⟩ := h
  refine ⟨steps ++ [(w, c)], ?_, ?_, ?_⟩
  · exact walkSteps_append hw (hend ▸ WalkSteps.cons he (WalkSteps.nil w))
  · rw [stepsEnd_append, hend, stepsEnd_cons, stepsEnd_nil]
  · rw [stepsCost_append, hcost, stepsCost_cons]
    unfold stepsCost
    simp

theorem walkCost_nil (E : List (ℕ × ℕ × ℚ)) (s : ℕ) : WalkCost E s s 0 :=
  ⟨[], WalkSteps.nil s, rfl, rfl⟩

/-- With non-negative kept costs every walk has non-negative cost. -/
theorem stepsCost_nonneg {E : List (ℕ × ℕ × ℚ)} {v : ℕ} {steps : List (ℕ × ℚ)}
    (hnn : ∀ t ∈ E, 0 ≤ t.2.2) (h : WalkSteps E v steps) : 0 ≤ stepsCost steps := by
  induction h with
  | nil => simp [stepsCost]
  | cons he hw ih =>
    rw [stepsCost_cons]
    have := hnn _ he
    positivity

theorem walkCost_nonneg {E : List (ℕ × ℕ × ℚ)} {s v : ℕ} {q : ℚ}
    (hnn : ∀ t ∈ E, 0 ≤ t.2.2) (h : WalkCost E s v q) : 0 ≤ q := by
  obtain ⟨steps, hw, -, hcost⟩ := h
  exact hcost ▸ stepsCost_nonneg hnn hw

/-! ## Parent-chain reconstruction

`while current is not None: path.append(current); current = parent[current]`.
The fuel bound only matters if the parent pointers were cyclic, which the
relaxations of these solvers never produce; every theorem below either
proves the chain short enough or does not depend on the reconstruction. -/

def buildPath (par : ℕ → Option ℕ) : ℕ → ℕ → List ℕ
  | 0, cur => [cur]
  | fuel + 1, cur =>
    cur ::
      (match par cur with
      | none => []
      | some p => buildPath par fuel p)

theorem buildPath_parent_none {par : ℕ → Option ℕ} {cur : ℕ}
    (h : par cur = none) : ∀ fuel, buildPath par fuel cur = [cur] := by
  intro fuel
  cases fuel with
  | zero => rfl
  | succ k =>
    unfold buildPath
    rw [h]

theorem buildPath_ne_nil (par : ℕ → Option ℕ) (fuel cur : ℕ) :
    buildPath par fuel cur ≠ [] := by
  cases fuel with
  | zero => simp [buildPath]
  | succ k => simp [buildPath]

/-! ## Dijkstra (`src/backend/algorithms/dijkstra.py`) -/

structure DijkState where
  dist : ℕ → WithTop ℚ
  par : ℕ → Option ℕ
  pq : List (ℚ × ℕ)
  eval : ℕ

/-- One relaxation of the neighbor loop:
`if new_dist < distances[neighbor]: update and push`. -/
def dijkRelaxStep (u : ℕ) (d : ℚ) (st : DijkState) (p : ℕ × ℚ) : DijkState :=
  if ((d + p.2 : ℚ) : WithTop ℚ) < st.dist p.1 then
    { st with
      dist := Function.update st.dist p.1 ((d + p.2 : ℚ) : WithTop ℚ)
      par := Function.update st.par p.1 (some u)
      pq := st.pq ++ [(d + p.2, p.1)] }
  else st

/-- The neighbor loop of one Dijkstra expansion: relax every
`(neighbor, cost)` of `u` in adjacency order, pushing improved nodes. -/
def dijkRelax (adj : ℕ → List (ℕ × ℚ)) (u : ℕ) (d : ℚ) (st : DijkState) : DijkState :=
  (adj u).foldl (dijkRelaxStep u d) st

/-- The Dijkstra `while pq` loop: pop the least `(distance, node)` tuple,
count it, drop it if stale, stop on the end node, otherwise relax. -/
def dijkLoop (adj : ℕ → List (ℕ × ℚ)) (endId : ℕ) :
    ℕ → DijkState → Option DijkState
  | 0, _ => none
  | fuel + 1, st =>
    match popMinBy pairLeB st.pq with
    | none => some st
    | some ((d, u), rest) =>
      let st1 : DijkState := { st with pq := rest, eval := st.eval + 1 }
      if ((d : ℚ) : WithTop ℚ) > st1.dist u then dijkLoop adj endId fuel st1
      else if u = endId then some st1
      else dijkLoop adj endId fuel (dijkRelax adj u d st1)

/-- `dijkstra`: blocked-endpoint sentinel, filtered adjacency, the loop,
then parent-chain reconstruction; returns
`(path, distances[end], evaluated_states)` (or `none` out of fuel). -/
def dijkstraRun (g : GraphData) (start endId : ℕ) (avoid : Bool)
    (w : ObjectiveWeights) (fuel : ℕ) : Option (List ℕ × WithTop ℚ × ℕ) :=
  if blockedAt g start || blockedAt g endId then some ([start, endId], ⊤, 0)
  else
    let adj := adjOf (filteredEdges g avoid w)
    let st0 : DijkState :=
      ⟨fun v => if v = start then ((0 : ℚ) : WithTop ℚ) else ⊤, fun _ => none,
        [(0, start)], 0⟩
    (dijkLoop adj endId fuel st0).map
      (fun st => ((buildPath st.par (numNodes g + 1) endId).reverse, st.dist endId, st.eval))

/-! ## Bellman-Ford relaxation (`src/backend/algorithms/dynamic_programming.py`) -/

/-- Key list of a Python dict built by first-insertion order. -/
def firstDedup : List ℕ → List ℕ
  | [] => []
  | x :: t => x :: firstDedup (t.filter (fun y => y ≠ x))
termination_by l => l.length
decreasing_by
  simp only [List.length_cons]
  exact Nat.lt_succ_of_le (List.length_filter_le _ _)

theorem mem_firstDedup : ∀ (l : List ℕ) (x : ℕ), x ∈ firstDedup l ↔ x ∈ l := by
  intro l
  induction l using firstDedup.induct with
  | case1 => simp [firstDedup]
  | case2 y t ih =>
    intro x
    rw [firstDedup]
    by_cases hxy : x = y
    · subst hxy
      simp
    · simp only [List.mem_cons, hxy, false_or, ih, List.mem_filter,
        decide_eq_true_eq]
      constructor
      · exact fun h => h.1
      · exact fun h => ⟨h, hxy⟩

/-- The flattened relaxation order of one DP round:
`for from_id in adjacency: for (to, cost) in adjacency[from_id]`, with the
dict keys in first-insertion order. -/
def dpRelaxSeq (E : List (ℕ × ℕ × ℚ)) : List (ℕ × ℕ × ℚ) :=
  (firstDedup (E.map (fun t => t.1))).flatMap
    (fun u => (adjOf E u).map (fun p => (u, p.1, p.2)))

theorem mem_dpRelaxSeq (E : List (ℕ × ℕ × ℚ)) (t : ℕ × ℕ × ℚ) :
    t ∈ dpRelaxSeq E ↔ t ∈ E := by
  rcases t with ⟨u, v, c⟩
  unfold dpRelaxSeq
  simp only [List.mem_flatMap, List.mem_map]
  constructor
  · rintro ⟨k, -, ⟨p, hp, heq⟩⟩
    rcases p with ⟨v1, c1⟩
    simp only [Prod.mk.injEq] at heq
    obtain ⟨rfl, rfl, rfl⟩ := heq
    exact mem_adjOf.mp hp
  · intro h
    refine ⟨u, (mem_firstDedup _ u).mpr ?_, (v, c), mem_adjOf.mpr h, rfl⟩
    exact List.mem_map.mpr ⟨(u, v, c), h, rfl⟩

/-- One relaxation attempt:
`if distances[from] != inf and distances[from] + cost < distances[to]`. -/
def relaxEntry (st : (ℕ → WithTop ℚ) × (ℕ → Option ℕ)) (t : ℕ × ℕ × ℚ) :
    (ℕ → WithTop ℚ) × (ℕ → Option ℕ) :=
  if st.1 t.1 ≠ ⊤ ∧ st.1 t.1 + (t.2.2 : WithTop ℚ) < st.1 t.2.1 then
    (Function.update st.1 t.2.1 (st.1 t.1 + (t.2.2 : WithTop ℚ)),
      Function.update st.2 t.2.1 (some t.1))
  else st

/-- One full round over the flattened relaxation sequence. -/
def dpRound (seq : List (ℕ × ℕ × ℚ)) (st : (ℕ → WithTop ℚ) × (ℕ → Option ℕ)) :
    (ℕ → WithTop ℚ) × (ℕ → Option ℕ) :=
  seq.foldl relaxEntry st

/-- `dynamic_programming`: blocked-endpoint sentinel, `|V| - 1` rounds of
relaxation, path reconstruction, and the `path[0] != start` sentinel
check; `evaluated_states` counts every relaxation attempt. -/
def dynamicProgramming (g : GraphData) (start endId : ℕ) (avoid : Bool)
    (w : ObjectiveWeights) : List ℕ × WithTop ℚ × ℕ :=
  if blockedAt g start || blockedAt g endId then ([start, endId], ⊤, 0)
  else
    let seq := dpRelaxSeq (filteredEdges g avoid w)
    let st0 : (ℕ → WithTop ℚ) × (ℕ → Option ℕ) :=
      (fun v => if v = start then ((0 : ℚ) : WithTop ℚ) else ⊤, fun _ => none)
    let stF := (dpRound seq)^[numNodes g - 1] st0
    let eval := (numNodes g - 1) * seq.length
    let path := (buildPath stF.2 (numNodes g + 1) endId).reverse
    if path.head? ≠ some start then ([start, endId], ⊤, eval)
    else (path, stF.1 endId, eval)

/-! ## A* (`src/backend/algorithms/astar.py`)

The Euclidean heuristic `math.sqrt((x2-x1)**2 + (y2-y1)**2)` is an
irrational real in general; the embedding takes the heuristic as a
function parameter and characterises it exactly by `EuclidHeuristic`
below (non-negative and squaring back to the squared distance), which
pins it uniquely whenever the distances are rational — as they are in
every concrete graph used here. -/

/-- `node_coords.get(node_id, (0, 0))`. -/
def coordsOf (g : GraphData) (i : ℕ) : ℚ × ℚ :=
  ((nodeById g i).map (fun n => (n.x, n.y))).getD (0, 0)

/-- `hfun` is the source's Euclidean-distance heuristic toward `endId`. -/
def EuclidHeuristic (g : GraphData) (endId : ℕ) (hfun : ℕ → ℚ) : Prop :=
  ∀ i, 0 ≤ hfun i ∧
    hfun i ^ 2 =
      ((coordsOf g endId).1 - (coordsOf g i).1) ^ 2 +
        ((coordsOf g endId).2 - (coordsOf g i).2) ^ 2

structure AstarState where
  gScore : ℕ → WithTop ℚ
  par : ℕ → Option ℕ
  openSet : List (WithTop ℚ × ℕ × ℕ)
  closed : List ℕ
  counter : ℕ
  eval : ℕ

/-- One relaxation of the A* neighbor loop: skip closed neighbors,
relax on a strictly better tentative g, pushing
`(g + h, counter, neighbor)`. -/
def astarRelaxStep (hfun : ℕ → ℚ) (cur : ℕ) (st : AstarState) (p : ℕ × ℚ) : AstarState :=
  if p.1 ∈ st.closed then st
  else
    let tentative := st.gScore cur + (p.2 : WithTop ℚ)
    if tentative < st.gScore p.1 then
      { st with
        gScore := Function.update st.gScore p.1 tentative
        par := Function.update st.par p.1 (some cur)
        openSet := st.openSet ++ [(tentative + (hfun p.1 : WithTop ℚ), st.counter, p.1)]
        counter := st.counter + 1 }
    else st

/-- The neighbor loop of one A* expansion. -/
def astarRelax (adj : ℕ → List (ℕ × ℚ)) (hfun : ℕ → ℚ) (cur : ℕ)
    (st : AstarState) : AstarState :=
  (adj cur).foldl (astarRelaxStep hfun cur) st

/-- The A* `while open_set` loop: pop the least `(f, counter, node)`
tuple, count it, skip closed nodes, return the reconstructed path on
popping the end node, otherwise close and relax.  Exhausting the queue
yields the `([start, end], inf, evaluated_states)` sentinel. -/
def astarLoop (adj : ℕ → List (ℕ × ℚ)) (hfun : ℕ → ℚ) (g : GraphData)
    (start endId : ℕ) : ℕ → AstarState → Option (List ℕ × WithTop ℚ × ℕ)
  | 0, _ => none
  | fuel + 1, st =>
    match popMinBy tripLeB st.openSet with
    | none => some ([start, endId], ⊤, st.eval)
    | some ((_, _, cur), rest) =>
      let st1 : AstarState := { st with openSet := rest, eval := st.eval + 1 }
      if cur ∈ st1.closed then astarLoop adj hfun g start endId fuel st1
      else if cur = endId then
        some ((buildPath st1.par (numNodes g + 1) endId).reverse, st1.gScore endId, st1.eval)
      else
        astarLoop adj hfun g start endId fuel
          (astarRelax adj hfun cur { st1 with closed := st1.closed ++ [cur] })

/-- `astar`: blocked-endpoint sentinel, the shared filter, and the loop
starting from `[(heuristic(start), 0, start)]`. -/
def astarRun (g : GraphData) (start endId : ℕ) (avoid : Bool)
    (w : ObjectiveWeights) (hfun : ℕ → ℚ) (fuel : ℕ) :
    Option (List ℕ × WithTop ℚ × ℕ) :=
  if blockedAt g start || blockedAt g endId then some ([start, endId], ⊤, 0)
  else
    let adj := adjOf (filteredEdges g avoid w)
    let st0 : AstarState :=
      ⟨fun v => if v = start then ((0 : ℚ) : WithTop ℚ) else ⊤, fun _ => none,
        [(((hfun start : ℚ) : WithTop ℚ), 0, start)], [], 1, 0⟩
    astarLoop adj hfun g start endId fuel st0

/-! ## Claim C3: the tie-break keying of the two heaps -/

/-- Modelled from the spec: the spec's description of Dijkstra's queue,
"a min-priority queue keyed by (distance, insertion counter)" with FIFO
order among equal distances.  The source's `dijkstra` actually pushes
`(distance, node_id)` tuples; this spec-side variant exists only to be
compared against `dijkstraRun`. -/
def fifoLeB (a b : ℚ × ℕ × ℕ) : Bool :=
  decide (a.1 < b.1) || (decide (a.1 = b.1) && decide (a.2.1 ≤ b.2.1))

structure FifoState where
  dist : ℕ → WithTop ℚ
  par : ℕ → Option ℕ
  pq : List (ℚ × ℕ × ℕ)
  counter : ℕ
  eval : ℕ

def fifoRelax (adj : ℕ → List (ℕ × ℚ)) (u : ℕ) (d : ℚ) (st : FifoState) : FifoState :=
  (adj u).foldl
    (fun st p =>
      if ((d + p.2 : ℚ) : WithTop ℚ) < st.dist p.1 then
        { st with
          dist := Function.update st.dist p.1 ((d + p.2 : ℚ) : WithTop ℚ)
          par := Function.update st.par p.1 (some u)
          pq := st.pq ++ [(d + p.2, st.counter, p.1)]
          counter := st.counter + 1 }
      else st)
    st

def fifoLoop (adj : ℕ → List (ℕ × ℚ)) (endId : ℕ) : ℕ → FifoState → Option FifoState
  | 0, _ => none
  | fuel + 1, st =>
    match popMinBy fifoLeB st.pq with
    | none => some st
    | some ((d, _, u), rest) =>
      let st1 : FifoState := { st with pq := rest, eval := st.eval + 1 }
      if ((d : ℚ) : WithTop ℚ) > st1.dist u then fifoLoop adj endId fuel st1
      else if u = endId then some st1
      else fifoLoop adj endId fuel (fifoRelax adj u d st1)

/-- Modelled from the spec: Dijkstra as §4.2 describes it, with the queue
keyed by `(distance, insertion counter)`. -/
def dijkstraSpecFifoRun (g : GraphData) (start endId : ℕ) (avoid : Bool)
    (w : ObjectiveWeights) (fuel : ℕ) : Option (List ℕ × WithTop ℚ × ℕ) :=
  if blockedAt g start || blockedAt g endId then some ([start, endId], ⊤, 0)
  else
    let adj := adjOf (filteredEdges g avoid w)
    let st0 : FifoState :=
      ⟨fun v => if v = start then ((0 : ℚ) : WithTop ℚ) else ⊤, fun _ => none,
        [(0, 0, start)], 1, 0⟩
    (fifoLoop adj endId fuel st0).map
      (fun st => ((buildPath st.par (numNodes g + 1) endId).reverse, st.dist endId, st.eval))

/-- Three nodes; the edge toward node 2 is declared (and hence inserted)
before the edge toward node 1, both at distance 1 from the start. -/
def tieGraph : GraphData :=
  ⟨[{ id := 0 }, { id := 1 }, { id := 2 }],
    [{ src := 0, dst := 2, cost := 1 }, { src := 0, dst := 1, cost := 1 }]⟩

/-- The distance-only weight setting. -/
def unitObjective : ObjectiveWeights := ⟨1, 0, 0, 0⟩

set_option maxHeartbeats 2000000 in
/-- Claim C3 counterexample: on `tieGraph` the entry for node 2 is pushed
before the equal-priority entry for node 1, yet the source's Dijkstra
pops node 1 first — its heap is keyed by `(distance, node_id)` — so it
stops after 2 pops, while the spec's `(distance, insertion counter)`
queue pops the earlier-inserted node 2 first and needs 3 pops. -/
theorem dijkstra_tie_break_cex :
    dijkstraRun tieGraph 0 1 false unitObjective 10 =
        some ([0, 1], ((1 : ℚ) : WithTop ℚ), 2) ∧
      dijkstraSpecFifoRun tieGraph 0 1 false unitObjective 10 =
        some ([0, 1], ((1 : ℚ) : WithTop ℚ), 3) ∧
      (2 : ℕ) ≠ 3 := by
  have hE : filteredEdges tieGraph false unitObjective = [(0, 2, 1), (0, 1, 1)] := by
    norm_num [filteredEdges, List.filterMap_cons, nodeById, calculateEdgeCost,
      tieGraph, unitObjective]
  have hN : numNodes tieGraph = 3 := by decide
  refine ⟨?_, ?_, by decide⟩
  · unfold dijkstraRun
    rw [if_neg (by decide), hE, hN]
    norm_num [dijkLoop, dijkRelax, dijkRelaxStep, popMinBy, pairLeB, adjOf, buildPath,
      Function.update_apply]
  · unfold dijkstraSpecFifoRun
    rw [if_neg (by decide), hE, hN]
    norm_num [fifoLoop, fifoRelax, popMinBy, fifoLeB, adjOf, buildPath,
      Function.update_apply]

/-- Claim C3 (amended): the popped entry of either heap is the
lexicographic minimum of its key tuple — for A* that tuple is
`(f_score, insertion counter, node)`, giving FIFO among equal-priority
candidates, but for Dijkstra it is `(distance, node_id)`, so among
equal-distance candidates the smallest *node id* pops first, regardless
of insertion order. -/
theorem queue_tie_break_keys :
    (∀ (l : List (ℚ × ℕ)) (m : ℚ × ℕ) (r : List (ℚ × ℕ)),
      popMinBy pairLeB l = some (m, r) →
        ∀ e ∈ l, m.1 < e.1 ∨ (m.1 = e.1 ∧ m.2 ≤ e.2)) ∧
    (∀ (l : List (WithTop ℚ × ℕ × ℕ)) (m : WithTop ℚ × ℕ × ℕ)
        (r : List (WithTop ℚ × ℕ × ℕ)),
      popMinBy tripLeB l = some (m, r) →
        ∀ e ∈ l,
          m.1 < e.1 ∨ (m.1 = e.1 ∧ (m.2.1 < e.2.1 ∨ (m.2.1 = e.2.1 ∧ m.2.2 ≤ e.2.2)))) := by
  constructor
  · intro l m r h e he
    have := popMinBy_min pairLeB pairLeB_total pairLeB_trans l m r h e he
    unfold pairLeB at this
    simpa using this
  · intro l m r h e he
    have := popMinBy_min tripLeB tripLeB_total tripLeB_trans l m r h e he
    unfold tripLeB at this
    simpa using this

/-- Witness for the amended C3 theorem at the queue state Dijkstra
reaches on `tieGraph`: among the equal-priority entries `(1, 2)` (pushed
first) and `(1, 1)`, the pop takes node 1. -/
theorem queue_tie_break_keys_witness :
    popMinBy pairLeB [(1, 2), ((1 : ℚ), (1 : ℕ))] = some ((1, 1), [(1, 2)]) ∧
      ((1 : ℚ) < 1 ∨ ((1 : ℚ) = 1 ∧ (1 : ℕ) ≤ 2)) :=
  ⟨by rfl,
    queue_tie_break_keys.1 [(1, 2), ((1 : ℚ), (1 : ℕ))] (1, 1) [(1, 2)] (by rfl)
      (1, 2) (by simp)⟩

/-! ## Claim C2: what the solvers return when the end is unreachable -/

/-- Reachability invariant of the Dijkstra loop: every recorded finite
distance and every queued key is the cost of an actual walk, and parent
pointers exist only for reached nodes. -/
def ReachInvD (E : List (ℕ × ℕ × ℚ)) (start : ℕ) (st : DijkState) : Prop :=
  (∀ v (q : ℚ), st.dist v = (q : WithTop ℚ) → WalkCost E start v q) ∧
    (∀ p ∈ st.pq, WalkCost E start p.2 p.1) ∧
    (∀ v, st.par v ≠ none → st.dist v ≠ ⊤)

theorem dijkRelaxStep_reach {E : List (ℕ × ℕ × ℚ)} {start u : ℕ} {d : ℚ}
    (hu : WalkCost E start u d) {st : DijkState} {p : ℕ × ℚ}
    (hp : (u, p.1, p.2) ∈ E) (h : ReachInvD E start st) :
    ReachInvD E start (dijkRelaxStep u d st p) := by
  obtain ⟨h1, h2, h3⟩ := h
  unfold dijkRelaxStep
  split
  · refine ⟨?_, ?_, ?_⟩
    · intro v q hv
      by_cases hvp : v = p.1
      · subst hvp
        simp only [Function.update_same] at hv
        have : d + p.2 = q := by exact_mod_cast hv
        exact this ▸ walkCost_extend hu hp
      · simp only [Function.update_noteq hvp] at hv
        exact h1 v q hv
    · intro e he
      rcases List.mem_append.mp he with he | he
      · exact h2 e he
      · rcases List.mem_singleton.mp he with rfl
        exact walkCost_extend hu hp
    · intro v hv
      by_cases hvp : v = p.1
      · subst hvp
        simp only [Function.update_same]
        exact WithTop.coe_ne_top
      · simp only [Function.update_noteq hvp] at hv ⊢
        exact h3 v hv
  · exact ⟨h1, h2, h3⟩

theorem dijkRelax_reach {E : List (ℕ × ℕ × ℚ)} {start u : ℕ} {d : ℚ}
    (hu : WalkCost E start u d) :
    ∀ (l : List (ℕ × ℚ)) (st : DijkState),
      (∀ p ∈ l, (u, p.1, p.2) ∈ E) → ReachInvD E start st →
      ReachInvD E start (l.foldl (dijkRelaxStep u d) st) := by
  intro l
  induction l with
  | nil => intro st _ h; exact h
  | cons p t ih =>
    intro st hl h
    exact ih _ (fun p1 hp1 => hl p1 (List.mem_cons_of_mem _ hp1))
      (dijkRelaxStep_reach hu (hl p (List.mem_cons_self _ _)) h)

theorem dijkLoop_reach {E : List (ℕ × ℕ × ℚ)} {start endId : ℕ} :
    ∀ (fuel : ℕ) (st st' : DijkState), ReachInvD E start st →
      dijkLoop (adjOf E) endId fuel st = some st' → ReachInvD E start st' := by
  intro fuel
  induction fuel with
  | zero => intro st st' _ h; cases h
  | succ k ih =>
    intro st st' h hrun
    unfold dijkLoop at hrun
    cases hpop : popMinBy pairLeB st.pq with
    | none =>
      rw [hpop] at hrun
      cases hrun
      exact h
    | some pr =>
      rcases pr with ⟨⟨d, u⟩, rest⟩
      rw [hpop] at hrun
      have hperm := popMinBy_perm pairLeB st.pq (d, u) rest hpop
      have hrest : ∀ p ∈ rest, WalkCost E start p.2 p.1 := fun p hp =>
        h.2.1 p (hperm.mem_iff.mpr (List.mem_cons_of_mem _ hp))
      have hu : WalkCost E start u d :=
        h.2.1 (d, u) (hperm.mem_iff.mpr (List.mem_cons_self _ _))
      have hst1 : ReachInvD E start { st with pq := rest, eval := st.eval + 1 } :=
        ⟨h.1, hrest, h.2.2⟩
      simp only at hrun
      split at hrun
      · exact ih _ _ hst1 hrun
      · split at hrun
        · cases hrun
          exact hst1
        · refine ih _ _ ?_ hrun
          exact dijkRelax_reach hu _ _ (fun p hp => mem_adjOf.mp hp) hst1

/-- Reachability invariant of the A* loop: every queued node is
reachable. -/
def ReachInvA (E : List (ℕ × ℕ × ℚ)) (start : ℕ) (st : AstarState) : Prop :=
  ∀ p ∈ st.openSet, HasWalk E start p.2.2

theorem astarRelaxStep_reach {E : List (ℕ × ℕ × ℚ)} {start cur : ℕ} {hfun : ℕ → ℚ}
    (hcur : HasWalk E start cur) {st : AstarState} {p : ℕ × ℚ}
    (hp : (cur, p.1, p.2) ∈ E) (h : ReachInvA E start st) :
    ReachInvA E start (astarRelaxStep hfun cur st p) := by
  unfold astarRelaxStep
  split
  · exact h
  · dsimp only
    split
    · intro e he
      rcases List.mem_append.mp he with he | he
      · exact h e he
      · rcases List.mem_singleton.mp he with rfl
        obtain ⟨q, hq⟩ := hcur
        exact ⟨q + p.2, walkCost_extend hq hp⟩
    · exact h

theorem astarRelax_reach {E : List (ℕ × ℕ × ℚ)} {start cur : ℕ} {hfun : ℕ → ℚ}
    (hcur : HasWalk E start cur) :
    ∀ (l : List (ℕ × ℚ)) (st : AstarState),
      (∀ p ∈ l, (cur, p.1, p.2) ∈ E) → ReachInvA E start st →
      ReachInvA E start (l.foldl (astarRelaxStep hfun cur) st) := by
  intro l
  induction l with
  | nil => intro st _ h; exact h
  | cons p t ih =>
    intro st hl h
    exact ih _ (fun p1 hp1 => hl p1 (List.mem_cons_of_mem _ hp1))
      (astarRelaxStep_reach hcur (hl p (List.mem_cons_self _ _)) h)

theorem astarLoop_unreachable {g : GraphData} {E : List (ℕ × ℕ × ℚ)}
    {start endId : ℕ} {hfun : ℕ → ℚ}
    (hur : ¬HasWalk E start endId) :
    ∀ (fuel : ℕ) (st : AstarState) (res : List ℕ × WithTop ℚ × ℕ),
      ReachInvA E start st →
      astarLoop (adjOf E) hfun g start endId fuel st = some res →
      res.1 = [start, endId] ∧ res.2.1 = ⊤ := by
  intro fuel
  induction fuel with
  | zero => intro st res _ h; cases h
  | succ k ih =>
    intro st res h hrun
    unfold astarLoop at hrun
    cases hpop : popMinBy tripLeB st.openSet with
    | none =>
      rw [hpop] at hrun
      cases hrun
      exact ⟨rfl, rfl⟩
    | some pr =>
      rcases pr with ⟨⟨f, cnt, cur⟩, rest⟩
      rw [hpop] at hrun
      have hperm := popMinBy_perm tripLeB st.openSet (f, cnt, cur) rest hpop
      have hcur : HasWalk E start cur :=
        h (f, cnt, cur) (hperm.mem_iff.mpr (List.mem_cons_self _ _))
      have hrest : ReachInvA E start { st with openSet := rest, eval := st.eval + 1 } :=
        fun p hp => h p (hperm.mem_iff.mpr (List.mem_cons_of_mem _ hp))
      simp only at hrun
      split at hrun
      · exact ih _ _ hrest hrun
      · split at hrun
        next hcureq =>
          exact absurd (hcureq ▸ hcur) hur
        · refine ih _ _ ?_ hrun
          exact astarRelax_reach hcur _ _ (fun p hp => mem_adjOf.mp hp) hrest

/-- Reachability invariant of the Bellman-Ford state. -/
def ReachInvDP (E : List (ℕ × ℕ × ℚ)) (start : ℕ)
    (st : (ℕ → WithTop ℚ) × (ℕ → Option ℕ)) : Prop :=
  (∀ v (q : ℚ), st.1 v = (q : WithTop ℚ) → WalkCost E start v q) ∧
    (∀ v, st.2 v ≠ none → st.1 v ≠ ⊤)

theorem relaxEntry_reach {E : List (ℕ × ℕ × ℚ)} {start : ℕ}
    {st : (ℕ → WithTop ℚ) × (ℕ → Option ℕ)} {t : ℕ × ℕ × ℚ}
    (ht : t ∈ E) (h : ReachInvDP E start st) :
    ReachInvDP E start (relaxEntry st t) := by
  obtain ⟨h1, h2⟩ := h
  unfold relaxEntry
  split
  next hcond =>
    obtain ⟨hne, -⟩ := hcond
    obtain ⟨q, hq⟩ := WithTop.ne_top_iff_exists.mp hne
    unfold ReachInvDP
    dsimp only
    constructor
    · intro v q1 hv
      by_cases hvp : v = t.2.1
      · subst hvp
        rw [Function.update_same, ← hq, ← WithTop.coe_add] at hv
        have : q + t.2.2 = q1 := by exact_mod_cast hv
        exact this ▸ walkCost_extend (h1 t.1 q hq.symm) (by
          rcases t with ⟨a, b, c⟩; exact ht)
      · rw [Function.update_noteq hvp] at hv
        exact h1 v q1 hv
    · intro v hv
      by_cases hvp : v = t.2.1
      · subst hvp
        rw [Function.update_same, ← hq, ← WithTop.coe_add]
        exact WithTop.coe_ne_top
      · simp only [Function.update_noteq hvp] at hv ⊢
        exact h2 v hv
  · exact ⟨h1, h2⟩

theorem dpRound_reach {E : List (ℕ × ℕ × ℚ)} {start : ℕ} :
    ∀ (seq : List (ℕ × ℕ × ℚ)) (st : (ℕ → WithTop ℚ) × (ℕ → Option ℕ)),
      (∀ t ∈ seq, t ∈ E) → ReachInvDP E start st →
      ReachInvDP E start (dpRound seq st) := by
  intro seq
  induction seq with
  | nil => intro st _ h; exact h
  | cons t rest ih =>
    intro st hseq h
    exact ih _ (fun t1 ht1 => hseq t1 (List.mem_cons_of_mem _ ht1))
      (relaxEntry_reach (hseq t (List.mem_cons_self _ _)) h)

theorem dpIter_reach {E : List (ℕ × ℕ × ℚ)} {start : ℕ}
    {seq : List (ℕ × ℕ × ℚ)} (hseq : ∀ t ∈ seq, t ∈ E) :
    ∀ (k : ℕ) (st : (ℕ → WithTop ℚ) × (ℕ → Option ℕ)),
      ReachInvDP E start st → ReachInvDP E start ((dpRound seq)^[k] st) := by
  intro k
  induction k with
  | zero => intro st h; exact h
  | succ n ih =>
    intro st h
    rw [Function.iterate_succ_apply]
    exact ih _ (dpRound_reach seq st hseq h)

/-- Claim C2 (amended): with unblocked endpoints and the end node
unreachable through the filtered adjacency, A* and the DP solver return
the `([start, end], inf, evaluated_states)` sentinel — DP having
performed `(|V| - 1) · |kept entries|` relaxation attempts — but Dijkstra
returns `([end], inf, evaluated_states)`: its reconstruction follows the
parent chain from `end`, which is empty, and never prepends `start`. -/
theorem unreachable_returns (g : GraphData) (start endId : ℕ) (avoid : Bool)
    (w : ObjectiveWeights) (hfun : ℕ → ℚ)
    (hb1 : blockedAt g start = false) (hb2 : blockedAt g endId = false)
    (hur : ¬HasWalk (filteredEdges g avoid w) start endId) :
    (∀ (fuel : ℕ) (r : List ℕ × WithTop ℚ × ℕ),
      dijkstraRun g start endId avoid w fuel = some r →
        r.1 = [endId] ∧ r.2.1 = ⊤) ∧
    (∀ (fuel : ℕ) (r : List ℕ × WithTop ℚ × ℕ),
      astarRun g start endId avoid w hfun fuel = some r →
        r.1 = [start, endId] ∧ r.2.1 = ⊤) ∧
    (dynamicProgramming g start endId avoid w =
      ([start, endId], ⊤,
        (numNodes g - 1) * (dpRelaxSeq (filteredEdges g avoid w)).length)) := by
  have hcond : (blockedAt g start || blockedAt g endId) = false := by
    rw [hb1, hb2]; rfl
  have hne : endId ≠ start := by
    intro h
    subst h
    exact hur ⟨0, walkCost_nil _ endId⟩
  refine ⟨?_, ?_, ?_⟩
  · intro fuel r hr
    unfold dijkstraRun at hr
    rw [hcond] at hr
    simp only [Bool.false_eq_true, if_false, Option.map_eq_some'] at hr
    obtain ⟨st', hloop, hst'⟩ := hr
    have hinv0 : ReachInvD (filteredEdges g avoid w) start
        ⟨fun v => if v = start then ((0 : ℚ) : WithTop ℚ) else ⊤, fun _ => none,
          [(0, start)], 0⟩ := by
      refine ⟨?_, ?_, ?_⟩
      · intro v q hv
        dsimp only at hv
        by_cases hvs : v = start
        · subst hvs
          rw [if_pos rfl] at hv
          have : (0 : ℚ) = q := by exact_mod_cast hv
          exact this ▸ walkCost_nil _ v
        · rw [if_neg hvs] at hv
          exact absurd hv.symm WithTop.coe_ne_top
      · intro p hp
        rcases List.mem_singleton.mp hp with rfl
        exact walkCost_nil _ start
      · intro v hv
        exact absurd rfl hv
    have hinv := dijkLoop_reach fuel _ st' hinv0 hloop
    have hdist : st'.dist endId = ⊤ := by
      by_contra htop
      obtain ⟨q, hq⟩ := WithTop.ne_top_iff_exists.mp htop
      exact hur ⟨q, hinv.1 endId q hq.symm⟩
    have hpar : st'.par endId = none := by
      by_contra hp
      exact (hinv.2.2 endId hp) hdist
    rw [← hst']
    refine ⟨?_, hdist⟩
    rw [buildPath_parent_none hpar]
    rfl
  · intro fuel r hr
    unfold astarRun at hr
    rw [hcond] at hr
    simp only [Bool.false_eq_true, if_false] at hr
    refine astarLoop_unreachable hur fuel _ r ?_ hr
    intro p hp
    rcases List.mem_singleton.mp hp with rfl
    exact ⟨0, walkCost_nil _ start⟩
  · unfold dynamicProgramming
    rw [hcond]
    simp only [Bool.false_eq_true, if_false]
    have hinv0 : ReachInvDP (filteredEdges g avoid w) start
        (fun v => if v = start then ((0 : ℚ) : WithTop ℚ) else ⊤, fun _ => none) := by
      constructor
      · intro v q hv
        dsimp only at hv
        by_cases hvs : v = start
        · subst hvs
          rw [if_pos rfl] at hv
          have : (0 : ℚ) = q := by exact_mod_cast hv
          exact this ▸ walkCost_nil _ v
        · rw [if_neg hvs] at hv
          exact absurd hv.symm WithTop.coe_ne_top
      · intro v hv
        exact absurd rfl hv
    have hinv := dpIter_reach (fun t ht => (mem_dpRelaxSeq _ t).mp ht)
      (numNodes g - 1) _ hinv0
    set stF := (dpRound (dpRelaxSeq (filteredEdges g avoid w)))^[numNodes g - 1]
      (fun v => if v = start then ((0 : ℚ) : WithTop ℚ) else ⊤, fun _ => none)
    have hdist : stF.1 endId = ⊤ := by
      by_contra htop
      obtain ⟨q, hq⟩ := WithTop.ne_top_iff_exists.mp htop
      exact hur ⟨q, hinv.1 endId q hq.symm⟩
    have hpar : stF.2 endId = none := by
      by_contra hp
      exact (hinv.2 endId hp) hdist
    rw [buildPath_parent_none hpar]
    simp only [List.reverse_singleton, List.head?_cons]
    rw [if_pos]
    intro hcontra
    simp only [Option.some.injEq] at hcontra
    exact hne hcontra

/-- Two isolated nodes: node 1 is unreachable from node 0. -/
def noEdgeGraph : GraphData := ⟨[{ id := 0 }, { id := 1 }], []⟩

theorem noEdgeGraph_unreachable :
    ¬HasWalk (filteredEdges noEdgeGraph false unitObjective) 0 1 := by
  rintro ⟨q, steps, hw, hend, -⟩
  cases hw with
  | nil => exact absurd hend (by decide)
  | cons he hw => cases he

/-- Claim C2 counterexample: with `end` unreachable, Dijkstra's
reconstruction walks the empty parent chain from `end` and returns the
path `[1]`, not the spec's sentinel `[0, 1]` (which A* and DP do
return). -/
theorem dijkstra_sentinel_cex :
    dijkstraRun noEdgeGraph 0 1 false unitObjective 10 = some ([1], ⊤, 1) ∧
      dynamicProgramming noEdgeGraph 0 1 false unitObjective = ([0, 1], ⊤, 0) ∧
      astarRun noEdgeGraph 0 1 false unitObjective (fun _ => 0) 10 =
        some ([0, 1], ⊤, 1) ∧
      ([1] : List ℕ) ≠ [0, 1] := by
  refine ⟨?_, ?_, ?_, by decide⟩
  · unfold dijkstraRun
    rw [if_neg (by decide), show filteredEdges noEdgeGraph false unitObjective = []
      from rfl, show numNodes noEdgeGraph = 2 from by decide]
    norm_num [dijkLoop, dijkRelax, dijkRelaxStep, popMinBy, pairLeB, adjOf, buildPath,
      Function.update_apply]
  · unfold dynamicProgramming
    rw [if_neg (by decide), show filteredEdges noEdgeGraph false unitObjective = []
      from rfl, show numNodes noEdgeGraph = 2 from by decide]
    norm_num [dpRelaxSeq, firstDedup, dpRound, buildPath]
  · unfold astarRun
    rw [if_neg (by decide), show filteredEdges noEdgeGraph false unitObjective = []
      from rfl]
    norm_num [astarLoop, astarRelax, astarRelaxStep, popMinBy, tripLeB, adjOf,
      buildPath, Function.update_apply]

/-- Witness for the amended C2 theorem on `noEdgeGraph`. -/
theorem unreachable_returns_witness :
    blockedAt noEdgeGraph 0 = false ∧ blockedAt noEdgeGraph 1 = false ∧
      ¬HasWalk (filteredEdges noEdgeGraph false unitObjective) 0 1 ∧
      ([1], (⊤ : WithTop ℚ), 1).1 = [1] ∧ ([1], (⊤ : WithTop ℚ), 1).2.1 = ⊤ ∧
      dynamicProgramming noEdgeGraph 0 1 false unitObjective =
        ([0, 1], ⊤,
          (numNodes noEdgeGraph - 1) *
            (dpRelaxSeq (filteredEdges noEdgeGraph false unitObjective)).length) := by
  have hrun : dijkstraRun noEdgeGraph 0 1 false unitObjective 10 =
      some ([1], ⊤, 1) := by
    unfold dijkstraRun
    rw [if_neg (by decide), show filteredEdges noEdgeGraph false unitObjective = []
      from rfl, show numNodes noEdgeGraph = 2 from by decide]
    norm_num [dijkLoop, dijkRelax, dijkRelaxStep, popMinBy, pairLeB, adjOf, buildPath,
      Function.update_apply]
  refine ⟨by decide, by decide, noEdgeGraph_unreachable, ?_, ?_, ?_⟩
  · exact (((unreachable_returns noEdgeGraph 0 1 false unitObjective (fun _ => 0)
      (by decide) (by decide) noEdgeGraph_unreachable).1) 10 ([1], ⊤, 1) hrun).1
  · exact (((unreachable_returns noEdgeGraph 0 1 false unitObjective (fun _ => 0)
      (by decide) (by decide) noEdgeGraph_unreachable).1) 10 ([1], ⊤, 1) hrun).2
  · exact (unreachable_returns noEdgeGraph 0 1 false unitObjective (fun _ => 0)
      (by decide) (by decide) noEdgeGraph_unreachable).2.2

/-! ## Claim C4: Dijkstra computes least walk costs

The invariant carries an existential "settled" set `S`: nodes whose
recorded distance already lower-bounds every walk.  Stale pops leave `S`
alone; a fresh pop settles its node. -/

structure DijkOptInv (E : List (ℕ × ℕ × ℚ)) (start : ℕ) (S : List ℕ)
    (st : DijkState) : Prop where
  reach : ReachInvD E start st
  pq_ge : ∀ p ∈ st.pq, st.dist p.2 ≤ (p.1 : WithTop ℚ)
  settled_opt : ∀ v ∈ S, ∀ q : ℚ, WalkCost E start v q → st.dist v ≤ (q : WithTop ℚ)
  settled_relaxed : ∀ u ∈ S, ∀ v (c : ℚ), (u, v, c) ∈ E →
    st.dist v ≤ st.dist u + (c : WithTop ℚ)
  fresh : ∀ v, v ∉ S → st.dist v ≠ ⊤ →
    ∃ q : ℚ, st.dist v = (q : WithTop ℚ) ∧ (q, v) ∈ st.pq
  start_le : st.dist start ≤ ((0 : ℚ) : WithTop ℚ)
  start_in : start ∈ S ∨ (0, start) ∈ st.pq

/-- The frontier-crossing argument: along any walk whose origin is
settled or queued within budget, either the endpoint's recorded distance
is within the walk's cost, or some queued key is. -/
theorem dijk_crossing {E : List (ℕ × ℕ × ℚ)} {start : ℕ} {S : List ℕ}
    {st : DijkState} (hnn : ∀ t ∈ E, 0 ≤ t.2.2)
    (inv : DijkOptInv E start S st) :
    ∀ {v : ℕ} {steps : List (ℕ × ℚ)}, WalkSteps E v steps →
      ∀ {b : ℚ}, st.dist v ≤ (b : WithTop ℚ) →
        (v ∈ S ∨ ∃ k : ℚ, (k, v) ∈ st.pq ∧ k ≤ b) →
        st.dist (stepsEnd v steps) ≤ ((b + stepsCost steps : ℚ) : WithTop ℚ) ∨
          ∃ p ∈ st.pq, p.1 ≤ b + stepsCost steps := by
  intro v steps hw
  induction hw with
  | nil v =>
    intro b hb _
    left
    rw [stepsEnd_nil]
    simpa [stepsCost] using hb
  | @cons v w c rest he hw ih =>
    intro b hb hfrontier
    rw [stepsEnd_cons, stepsCost_cons]
    rcases hfrontier with hvS | ⟨k, hk, hkb⟩
    · have hdw : st.dist w ≤ ((b + c : ℚ) : WithTop ℚ) := by
        calc st.dist w ≤ st.dist v + (c : WithTop ℚ) :=
              inv.settled_relaxed v hvS w c he
          _ ≤ (b : WithTop ℚ) + (c : WithTop ℚ) := add_le_add_right hb _
          _ = ((b + c : ℚ) : WithTop ℚ) := (WithTop.coe_add b c).symm
      have hfront2 : w ∈ S ∨ ∃ k : ℚ, (k, w) ∈ st.pq ∧ k ≤ b + c := by
        by_cases hwS : w ∈ S
        · exact Or.inl hwS
        · have hne : st.dist w ≠ ⊤ :=
            (lt_of_le_of_lt hdw (WithTop.coe_lt_top _)).ne
          obtain ⟨q, hq, hmem⟩ := inv.fresh w hwS hne
          refine Or.inr ⟨q, hmem, ?_⟩
          rw [hq] at hdw
          exact_mod_cast hdw
      rcases ih hdw hfront2 with hout | ⟨p, hp, hple⟩
      · left
        rw [← add_assoc]
        exact hout
      · right
        exact ⟨p, hp, by linarith⟩
    · right
      refine ⟨(k, v), hk, ?_⟩
      have hc : 0 ≤ c := hnn _ he
      have hrest : 0 ≤ stepsCost rest := stepsCost_nonneg hnn hw
      simp only
      linarith

theorem dijkRelaxStep_dist_le (u : ℕ) (d : ℚ) (st : DijkState) (p : ℕ × ℚ)
    (v : ℕ) : (dijkRelaxStep u d st p).dist v ≤ st.dist v := by
  unfold dijkRelaxStep
  split
  next hlt =>
    by_cases hv : v = p.1
    · subst hv
      simp only [Function.update_same]
      exact le_of_lt hlt
    · simp only [Function.update_noteq hv]
      exact le_refl _
  · exact le_refl _

theorem dijkRelaxFold_dist_le (u : ℕ) (d : ℚ) :
    ∀ (l : List (ℕ × ℚ)) (st : DijkState) (v : ℕ),
      ((l.foldl (dijkRelaxStep u d) st).dist v) ≤ st.dist v := by
  intro l
  induction l with
  | nil => intro st v; exact le_refl _
  | cons p t ih =>
    intro st v
    exact (ih _ v).trans (dijkRelaxStep_dist_le u d st p v)

theorem dijkRelaxStep_bound (u : ℕ) (d : ℚ) (st : DijkState) (p : ℕ × ℚ) :
    (dijkRelaxStep u d st p).dist p.1 ≤ ((d + p.2 : ℚ) : WithTop ℚ) := by
  unfold dijkRelaxStep
  split
  · simp only [Function.update_same]
    exact le_refl _
  next hlt => exact le_of_not_lt hlt

theorem dijkRelaxFold_bound (u : ℕ) (d : ℚ) :
    ∀ (l : List (ℕ × ℚ)) (st : DijkState) (p : ℕ × ℚ), p ∈ l →
      ((l.foldl (dijkRelaxStep u d) st).dist p.1) ≤ ((d + p.2 : ℚ) : WithTop ℚ) := by
  intro l
  induction l with
  | nil => intro st p hp; cases hp
  | cons hd t ih =>
    intro st p hp
    rcases List.mem_cons.mp hp with rfl | hp
    · exact (dijkRelaxFold_dist_le u d t _ p.1).trans (dijkRelaxStep_bound u d st p)
    · exact ih _ p hp

/-- The invariant kept through the neighbor loop of a fresh pop of `u`
with key `d`: the part of `DijkOptInv` for `u :: S` that does not yet
assert `u`'s outgoing edges relaxed. -/
structure DijkMidInv (E : List (ℕ × ℕ × ℚ)) (start : ℕ) (S : List ℕ)
    (u : ℕ) (d : ℚ) (st : DijkState) : Prop where
  reach : ReachInvD E start st
  pq_ge : ∀ p ∈ st.pq, st.dist p.2 ≤ (p.1 : WithTop ℚ)
  settled_opt : ∀ v ∈ u :: S, ∀ q : ℚ, WalkCost E start v q →
    st.dist v ≤ (q : WithTop ℚ)
  settled_relaxed : ∀ u' ∈ S, ∀ v (c : ℚ), (u', v, c) ∈ E →
    st.dist v ≤ st.dist u' + (c : WithTop ℚ)
  fresh : ∀ v, v ∉ u :: S → st.dist v ≠ ⊤ →
    ∃ q : ℚ, st.dist v = (q : WithTop ℚ) ∧ (q, v) ∈ st.pq
  start_le : st.dist start ≤ ((0 : ℚ) : WithTop ℚ)
  start_in : start ∈ u :: S ∨ (0, start) ∈ st.pq
  dist_u : st.dist u = (d : WithTop ℚ)

theorem dijkRelaxStep_midInv {E : List (ℕ × ℕ × ℚ)} {start : ℕ} {S : List ℕ}
    {u : ℕ} {d : ℚ} {st : DijkState} {p : ℕ × ℚ}
    (hnn : ∀ t ∈ E, 0 ≤ t.2.2) (hp : (u, p.1, p.2) ∈ E)
    (inv : DijkMidInv E start S u d st) :
    DijkMidInv E start S u d (dijkRelaxStep u d st p) := by
  have hwu : WalkCost E start u d := inv.reach.1 u d inv.dist_u
  have hreach' := dijkRelaxStep_reach hwu hp inv.reach
  have hd0 : 0 ≤ d := walkCost_nonneg hnn hwu
  have hc0 : 0 ≤ p.2 := hnn _ hp
  by_cases hcond : ((d + p.2 : ℚ) : WithTop ℚ) < st.dist p.1
  · -- the entry improves: p.1 cannot be settled
    have hp1 : p.1 ∉ u :: S := by
      intro hmem
      exact absurd (lt_of_lt_of_le hcond
        (inv.settled_opt p.1 hmem (d + p.2) (walkCost_extend hwu hp))) (lt_irrefl _)
    have hstep : dijkRelaxStep u d st p =
        { st with
          dist := Function.update st.dist p.1 ((d + p.2 : ℚ) : WithTop ℚ)
          par := Function.update st.par p.1 (some u)
          pq := st.pq ++ [(d + p.2, p.1)] } := by
      unfold dijkRelaxStep
      rw [if_pos hcond]
    rw [hstep] at hreach' ⊢
    refine ⟨hreach', ?_, ?_, ?_, ?_, ?_, ?_, ?_⟩
    · intro e he
      rcases List.mem_append.mp he with he | he
      · refine le_trans ?_ (inv.pq_ge e he)
        by_cases hv : e.2 = p.1
        · rw [hv]
          simp only [Function.update_same]
          exact le_of_lt (hv ▸ hcond)
        · simp only [Function.update_noteq hv]
          exact le_refl _
      · rcases List.mem_singleton.mp he with rfl
        simp only [Function.update_same]
        exact le_refl _
    · intro v hv q hq
      have hne : v ≠ p.1 := fun h => hp1 (h ▸ hv)
      simp only [Function.update_noteq hne]
      exact inv.settled_opt v hv q hq
    · intro u' hu' v c he
      have hu'ne : u' ≠ p.1 := fun h => hp1 (h ▸ List.mem_cons_of_mem _ hu')
      simp only [Function.update_noteq hu'ne]
      have hle : Function.update st.dist p.1 ((d + p.2 : ℚ) : WithTop ℚ) v ≤ st.dist v := by
        by_cases hv : v = p.1
        · subst hv
          simp only [Function.update_same]
          exact le_of_lt hcond
        · simp only [Function.update_noteq hv]
          exact le_refl _
      exact hle.trans (inv.settled_relaxed u' hu' v c he)
    · intro v hv hne
      by_cases hveq : v = p.1
      · subst hveq
        exact ⟨d + p.2, by simp only [Function.update_same], by simp⟩
      · simp only [Function.update_noteq hveq] at hne ⊢
        obtain ⟨q, hq, hmem⟩ := inv.fresh v hv hne
        exact ⟨q, hq, List.mem_append.mpr (Or.inl hmem)⟩
    · by_cases hs : start = p.1
      · exfalso
        have h0 := inv.start_le
        rw [hs] at h0
        have h1 : ((d + p.2 : ℚ) : WithTop ℚ) < ((0 : ℚ) : WithTop ℚ) :=
          lt_of_lt_of_le hcond h0
        have h2 : d + p.2 < 0 := by exact_mod_cast h1
        linarith
      · simp only [Function.update_noteq hs]
        exact inv.start_le
    · rcases inv.start_in with h | h
      · exact Or.inl h
      · exact Or.inr (List.mem_append.mpr (Or.inl h))
    · have hune : u ≠ p.1 := fun h => hp1 (h ▸ List.mem_cons_self u S)
      simp only [Function.update_noteq hune]
      exact inv.dist_u
  · have hstep : dijkRelaxStep u d st p = st := by
      unfold dijkRelaxStep
      rw [if_neg hcond]
    rw [hstep]
    exact inv

theorem dijkRelaxFold_midInv {E : List (ℕ × ℕ × ℚ)} {start : ℕ} {S : List ℕ}
    {u : ℕ} {d : ℚ} (hnn : ∀ t ∈ E, 0 ≤ t.2.2) :
    ∀ (l : List (ℕ × ℚ)) (st : DijkState),
      (∀ p ∈ l, (u, p.1, p.2) ∈ E) → DijkMidInv E start S u d st →
      DijkMidInv E start S u d (l.foldl (dijkRelaxStep u d) st) := by
  intro l
  induction l with
  | nil => intro st _ h; exact h
  | cons p t ih =>
    intro st hl h
    exact ih _ (fun p1 hp1 => hl p1 (List.mem_cons_of_mem _ hp1))
      (dijkRelaxStep_midInv hnn (hl p (List.mem_cons_self _ _)) h)

/-- After the whole neighbor loop the node `u` is fully settled. -/
theorem dijkRelax_optInv {E : List (ℕ × ℕ × ℚ)} {start : ℕ} {S : List ℕ}
    {u : ℕ} {d : ℚ} {st : DijkState} (hnn : ∀ t ∈ E, 0 ≤ t.2.2)
    (inv : DijkMidInv E start S u d st) :
    DijkOptInv E start (u :: S) (dijkRelax (adjOf E) u d st) := by
  have hfold := dijkRelaxFold_midInv hnn (adjOf E u) st
    (fun p hp => mem_adjOf.mp hp) inv
  unfold dijkRelax
  refine ⟨hfold.reach, hfold.pq_ge, hfold.settled_opt, ?_, hfold.fresh,
    hfold.start_le, hfold.start_in⟩
  intro u' hu' v c he
  rcases List.mem_cons.mp hu' with rfl | hu'
  · have hb := dijkRelaxFold_bound u' d (adjOf E u') st (v, c) (mem_adjOf.mpr he)
    rw [hfold.dist_u, ← WithTop.coe_add]
    exact hb
  · exact hfold.settled_relaxed u' hu' v c he

/-- When the popped entry is fresh, its node's recorded distance already
lower-bounds every walk cost. -/
theorem dijk_settled_at_pop {E : List (ℕ × ℕ × ℚ)} {start : ℕ} {S : List ℕ}
    {st : DijkState} {d : ℚ} {u : ℕ} {rest : List (ℚ × ℕ)}
    (hnn : ∀ t ∈ E, 0 ≤ t.2.2) (inv : DijkOptInv E start S st)
    (hpop : popMinBy pairLeB st.pq = some ((d, u), rest))
    (hfresh : ¬((d : ℚ) : WithTop ℚ) > st.dist u) :
    (∀ q : ℚ, WalkCost E start u q → st.dist u ≤ (q : WithTop ℚ)) ∧
      st.dist u = ((d : ℚ) : WithTop ℚ) := by
  have hperm := popMinBy_perm pairLeB st.pq (d, u) rest hpop
  have hmem : (d, u) ∈ st.pq := hperm.mem_iff.mpr (List.mem_cons_self _ _)
  have hdu : st.dist u = ((d : ℚ) : WithTop ℚ) :=
    le_antisymm (inv.pq_ge (d, u) hmem) (not_lt.mp hfresh)
  refine ⟨?_, hdu⟩
  intro q hq
  obtain ⟨steps, hw, hend, hcost⟩ := hq
  have hfront : start ∈ S ∨ ∃ k : ℚ, (k, start) ∈ st.pq ∧ k ≤ 0 := by
    rcases inv.start_in with h | h
    · exact Or.inl h
    · exact Or.inr ⟨0, h, le_refl 0⟩
  rcases dijk_crossing hnn inv hw inv.start_le hfront with hout | ⟨p, hp, hple⟩
  · rw [hend] at hout
    rw [hcost] at hout
    simpa using hout
  · have hmin := popMinBy_min pairLeB pairLeB_total pairLeB_trans st.pq (d, u) rest hpop p hp
    unfold pairLeB at hmin
    simp only [Bool.or_eq_true, Bool.and_eq_true, decide_eq_true_eq] at hmin
    have hdp : d ≤ p.1 := by
      rcases hmin with h | ⟨h, -⟩
      · exact le_of_lt h
      · exact le_of_eq h
    rw [hdu]
    rw [hcost, zero_add] at hple
    exact_mod_cast hdp.trans hple

/-- A stale pop only shrinks the queue; the invariant survives with the
same settled set. -/
theorem dijk_stale_inv {E : List (ℕ × ℕ × ℚ)} {start : ℕ} {S : List ℕ}
    {st : DijkState} {d : ℚ} {u : ℕ} {rest : List (ℚ × ℕ)}
    (hnn : ∀ t ∈ E, 0 ≤ t.2.2) (inv : DijkOptInv E start S st)
    (hpop : popMinBy pairLeB st.pq = some ((d, u), rest))
    (hstale : ((d : ℚ) : WithTop ℚ) > st.dist u) :
    DijkOptInv E start S { st with pq := rest, eval := st.eval + 1 } := by
  have hperm := popMinBy_perm pairLeB st.pq (d, u) rest hpop
  have hsub : ∀ p ∈ rest, p ∈ st.pq := fun p hp =>
    hperm.mem_iff.mpr (List.mem_cons_of_mem _ hp)
  refine ⟨⟨inv.reach.1, fun p hp => inv.reach.2.1 p (hsub p hp), inv.reach.2.2⟩,
    fun p hp => inv.pq_ge p (hsub p hp), inv.settled_opt, inv.settled_relaxed,
    ?_, inv.start_le, ?_⟩
  · intro v hv hne
    obtain ⟨q, hq, hmem⟩ := inv.fresh v hv hne
    rcases List.mem_cons.mp (hperm.mem_iff.mp hmem) with heq | hmem2
    · exfalso
      simp only [Prod.mk.injEq] at heq
      obtain ⟨rfl, rfl⟩ := heq
      rw [hq] at hstale
      exact lt_irrefl _ hstale
    · exact ⟨q, hq, hmem2⟩
  · rcases inv.start_in with h | h
    · exact Or.inl h
    · rcases List.mem_cons.mp (hperm.mem_iff.mp h) with heq | hmem2
      · exfalso
        simp only [Prod.mk.injEq] at heq
        obtain ⟨rfl, rfl⟩ := heq
        -- the initial key 0 can never be stale: distances are walk costs ≥ 0
        have hlt : st.dist start < ((0 : ℚ) : WithTop ℚ) := hstale
        obtain ⟨q, hq⟩ := WithTop.ne_top_iff_exists.mp hlt.ne_top
        have hq0 : q < 0 := by
          rw [← hq] at hlt
          exact_mod_cast hlt
        have := walkCost_nonneg hnn (inv.reach.1 start q hq.symm)
        linarith
      · exact Or.inr hmem2

/-- The optimality half of the Dijkstra loop. -/
theorem dijkLoop_opt {E : List (ℕ × ℕ × ℚ)} {start endId : ℕ}
    (hnn : ∀ t ∈ E, 0 ≤ t.2.2) :
    ∀ (fuel : ℕ) (S : List ℕ) (st st' : DijkState), DijkOptInv E start S st →
      dijkLoop (adjOf E) endId fuel st = some st' →
      (∀ q : ℚ, WalkCost E start endId q → st'.dist endId ≤ (q : WithTop ℚ)) ∧
        (∀ v (q : ℚ), st'.dist v = (q : WithTop ℚ) → WalkCost E start v q) := by
  intro fuel
  induction fuel with
  | zero => intro S st st' _ h; cases h
  | succ k ih =>
    intro S st st' inv hrun
    unfold dijkLoop at hrun
    cases hpop : popMinBy pairLeB st.pq with
    | none =>
      rw [hpop] at hrun
      cases hrun
      refine ⟨?_, inv.reach.1⟩
      intro q hq
      obtain ⟨steps, hw, hend, hcost⟩ := hq
      have hpq : st.pq = [] := (popMinBy_none pairLeB st.pq).mp hpop
      have hfront : start ∈ S ∨ ∃ kk : ℚ, (kk, start) ∈ st.pq ∧ kk ≤ 0 := by
        rcases inv.start_in with h | h
        · exact Or.inl h
        · exact Or.inr ⟨0, h, le_refl 0⟩
      rcases dijk_crossing hnn inv hw inv.start_le hfront with hout | ⟨p, hp, -⟩
      · rw [hend, hcost] at hout
        simpa using hout
      · rw [hpq] at hp
        cases hp
    | some pr =>
      rcases pr with ⟨⟨d, u⟩, rest⟩
      rw [hpop] at hrun
      simp only at hrun
      split at hrun
      next hstale =>
        exact ih S _ st' (dijk_stale_inv hnn inv hpop hstale) hrun
      next hfresh =>
        have hset := dijk_settled_at_pop hnn inv hpop hfresh
        split at hrun
        next hueq =>
          cases hrun
          subst hueq
          exact ⟨hset.1, inv.reach.1⟩
        next hune =>
          have hperm := popMinBy_perm pairLeB st.pq (d, u) rest hpop
          have hsub : ∀ p ∈ rest, p ∈ st.pq := fun p hp =>
            hperm.mem_iff.mpr (List.mem_cons_of_mem _ hp)
          have hmid : DijkMidInv E start S u d
              { st with pq := rest, eval := st.eval + 1 } := by
            refine ⟨⟨inv.reach.1, fun p hp => inv.reach.2.1 p (hsub p hp),
              inv.reach.2.2⟩, fun p hp => inv.pq_ge p (hsub p hp), ?_,
              inv.settled_relaxed, ?_, inv.start_le, ?_, hset.2⟩
            · intro v hv q hq
              rcases List.mem_cons.mp hv with rfl | hv
              · exact hset.1 q hq
              · exact inv.settled_opt v hv q hq
            · intro v hv hne
              have hvS : v ∉ S := fun h => hv (List.mem_cons_of_mem _ h)
              obtain ⟨q, hq, hmem⟩ := inv.fresh v hvS hne
              rcases List.mem_cons.mp (hperm.mem_iff.mp hmem) with heq | hmem2
              · exfalso
                simp only [Prod.mk.injEq] at heq
                exact hv (heq.2 ▸ List.mem_cons_self _ _)
              · exact ⟨q, hq, hmem2⟩
            · rcases inv.start_in with h | h
              · exact Or.inl (List.mem_cons_of_mem _ h)
              · rcases List.mem_cons.mp (hperm.mem_iff.mp h) with heq | hmem2
                · simp only [Prod.mk.injEq] at heq
                  exact Or.inl (heq.2 ▸ List.mem_cons_self _ _)
                · exact Or.inr hmem2
          exact ih (u :: S) _ st' (dijkRelax_optInv hnn hmid) hrun

/-! ## Bellman-Ford correctness -/

theorem relaxEntry_dist_le (st : (ℕ → WithTop ℚ) × (ℕ → Option ℕ))
    (t : ℕ × ℕ × ℚ) (v : ℕ) : (relaxEntry st t).1 v ≤ st.1 v := by
  unfold relaxEntry
  split
  next hcond =>
    by_cases hv : v = t.2.1
    · subst hv
      simp only [Function.update_same]
      exact le_of_lt hcond.2
    · simp only [Function.update_noteq hv]
      exact le_refl _
  · exact le_refl _

theorem dpFold_dist_le :
    ∀ (l : List (ℕ × ℕ × ℚ)) (st : (ℕ → WithTop ℚ) × (ℕ → Option ℕ)) (v : ℕ),
      (l.foldl relaxEntry st).1 v ≤ st.1 v := by
  intro l
  induction l with
  | nil => intro st v; exact le_refl _
  | cons t rest ih =>
    intro st v
    exact (ih _ v).trans (relaxEntry_dist_le st t v)

theorem relaxEntry_bound (st : (ℕ → WithTop ℚ) × (ℕ → Option ℕ)) (t : ℕ × ℕ × ℚ) :
    (relaxEntry st t).1 t.2.1 ≤ st.1 t.1 + (t.2.2 : WithTop ℚ) := by
  unfold relaxEntry
  split
  next hcond =>
    simp only [Function.update_same]
    exact le_refl _
  next hcond =>
    rw [not_and_or] at hcond
    rcases hcond with h | h
    · rw [not_ne_iff.mp h]
      exact le_top
    · exact le_of_not_lt h

/-- One full round extends the step-bounded completeness by one edge. -/
theorem dpRound_progress {E : List (ℕ × ℕ × ℚ)} {start : ℕ} {k : ℕ}
    {seq : List (ℕ × ℕ × ℚ)} (hseq : ∀ t, t ∈ seq ↔ t ∈ E)
    (st : (ℕ → WithTop ℚ) × (ℕ → Option ℕ))
    (hpre : ∀ steps, WalkSteps E start steps → steps.length ≤ k →
      st.1 (stepsEnd start steps) ≤ ((stepsCost steps : ℚ) : WithTop ℚ)) :
    ∀ steps, WalkSteps E start steps → steps.length ≤ k + 1 →
      (dpRound seq st).1 (stepsEnd start steps) ≤ ((stepsCost steps : ℚ) : WithTop ℚ) := by
  intro steps hw hlen
  by_cases hsh : steps.length ≤ k
  · exact (dpFold_dist_le seq st _).trans (hpre steps hw hsh)
  · rcases List.eq_nil_or_concat steps with rfl | ⟨init, last, rfl⟩
    · exact absurd (Nat.zero_le k) hsh
    · rcases last with ⟨w, c⟩
      rw [List.concat_eq_append] at hw hlen ⊢
      obtain ⟨hinit, hlast⟩ := walkSteps_append_inv hw
      have he : (stepsEnd start init, w, c) ∈ E := by
        cases hlast with
        | cons he2 _ => exact he2
      have hinitlen : init.length ≤ k := by
        simp only [List.length_append, List.length_singleton] at hlen
        omega
      have hinitbound := hpre init hinit hinitlen
      obtain ⟨l1, l2, hsplit⟩ := List.append_of_mem ((hseq _).mpr he)
      have hrw : dpRound seq st =
          l2.foldl relaxEntry (relaxEntry (l1.foldl relaxEntry st) (stepsEnd start init, w, c)) := by
        rw [dpRound, hsplit, List.foldl_append, List.foldl_cons]
      have hu1 : (l1.foldl relaxEntry st).1 (stepsEnd start init) ≤
          ((stepsCost init : ℚ) : WithTop ℚ) :=
        (dpFold_dist_le l1 st _).trans hinitbound
      have hw1 : (relaxEntry (l1.foldl relaxEntry st) (stepsEnd start init, w, c)).1 w ≤
          ((stepsCost init + c : ℚ) : WithTop ℚ) := by
        refine (relaxEntry_bound _ _).trans ?_
        rw [WithTop.coe_add]
        exact add_le_add_right hu1 _
      have hend : stepsEnd start (init ++ [(w, c)]) = w := by
        rw [stepsEnd_append, stepsEnd_cons, stepsEnd_nil]
      have hcost : stepsCost (init ++ [(w, c)]) = stepsCost init + c := by
        rw [stepsCost_append, stepsCost_cons]
        simp [stepsCost]
      rw [hend, hcost, hrw]
      exact (dpFold_dist_le l2 _ w).trans hw1

/-- After `k` rounds every walk of at most `k` steps bounds the recorded
distance of its endpoint. -/
theorem dpIter_progress {E : List (ℕ × ℕ × ℚ)} {start : ℕ}
    {seq : List (ℕ × ℕ × ℚ)} (hseq : ∀ t, t ∈ seq ↔ t ∈ E) :
    ∀ (k : ℕ),
      ∀ steps, WalkSteps E start steps → steps.length ≤ k →
        ((dpRound seq)^[k]
            (fun v => if v = start then ((0 : ℚ) : WithTop ℚ) else ⊤,
             fun _ => (none : Option ℕ))).1 (stepsEnd start steps) ≤
          ((stepsCost steps : ℚ) : WithTop ℚ) := by
  intro k
  induction k with
  | zero =>
    intro steps hw hlen
    rw [Nat.le_zero, List.length_eq_zero] at hlen
    subst hlen
    rw [stepsEnd_nil]
    simp [stepsCost]
  | succ n ih =>
    intro steps hw hlen
    rw [Function.iterate_succ_apply']
    exact dpRound_progress hseq _ ih steps hw hlen

/-- Any node visited by a walk starts a suffix walk with the same endpoint. -/
theorem walk_dropToNode {E : List (ℕ × ℕ × ℚ)} {v : ℕ} {steps : List (ℕ × ℚ)}
    (h : WalkSteps E v steps) :
    ∀ x ∈ v :: steps.map Prod.fst,
      ∃ pre tail, steps = pre ++ tail ∧ WalkSteps E x tail ∧
        stepsEnd x tail = stepsEnd v steps ∧
        (x :: tail.map Prod.fst) <:+ (v :: steps.map Prod.fst) := by
  induction h with
  | nil v =>
    intro x hx
    simp only [List.map_nil, List.mem_singleton] at hx
    subst hx
    exact ⟨[], [], rfl, WalkSteps.nil x, rfl, List.suffix_refl _⟩
  | @cons v w c rest he hw ih =>
    intro x hx
    rw [List.map_cons, List.mem_cons] at hx
    rcases hx with rfl | hx2
    · exact ⟨[], (w, c) :: rest, rfl, WalkSteps.cons he hw, rfl, List.suffix_refl _⟩
    · obtain ⟨pre, tail, hsplit, htail, hend, hsuf⟩ := ih x hx2
      refine ⟨(w, c) :: pre, tail, by rw [hsplit, List.cons_append], htail, ?_, ?_⟩
      · rw [hend, stepsEnd_cons]
      · exact hsuf.trans (List.suffix_cons v _)

/-- Cycle removal: with non-negative costs every walk can be shortened to a
walk visiting no node twice, with the same endpoint and no larger cost. -/
theorem walk_dedup {E : List (ℕ × ℕ × ℚ)} (hnn : ∀ t ∈ E, 0 ≤ t.2.2) :
    ∀ (n : ℕ) (v : ℕ) (steps : List (ℕ × ℚ)), steps.length ≤ n →
      WalkSteps E v steps →
      ∃ steps2, WalkSteps E v steps2 ∧ stepsEnd v steps2 = stepsEnd v steps ∧
        stepsCost steps2 ≤ stepsCost steps ∧
        (v :: steps2.map Prod.fst).Nodup ∧ steps2.length ≤ steps.length := by
  intro n
  induction n with
  | zero =>
    intro v steps hlen hw
    rw [Nat.le_zero, List.length_eq_zero] at hlen
    subst hlen
    exact ⟨[], WalkSteps.nil v, rfl, le_refl _, List.nodup_singleton v, le_refl _⟩
  | succ n ih =>
    intro v steps hlen hw
    cases hw with
    | nil =>
      exact ⟨[], WalkSteps.nil v, rfl, le_refl _, List.nodup_singleton v, le_refl _⟩
    | @cons v w c rest he hw2 =>
      simp only [List.length_cons, Nat.succ_le_succ_iff] at hlen
      obtain ⟨rest2, hwalk2, hend2, hcost2, hnodup2, hlen2⟩ := ih w rest hlen hw2
      have hc : 0 ≤ c := hnn _ he
      by_cases hv : v ∈ w :: rest2.map Prod.fst
      · obtain ⟨pre, tail, hsplit, htail, hendt, hsuf⟩ :=
          walk_dropToNode hwalk2 v hv
        refine ⟨tail, htail, ?_, ?_, ?_, ?_⟩
        · rw [hendt, hend2, stepsEnd_cons]
        · have hpre : 0 ≤ stepsCost pre :=
            stepsCost_nonneg hnn (walkSteps_append_inv (hsplit ▸ hwalk2)).1
          have h1 : stepsCost tail ≤ stepsCost rest2 := by
            rw [hsplit, stepsCost_append]
            linarith
          rw [stepsCost_cons]
          calc stepsCost tail ≤ stepsCost rest2 := h1
            _ ≤ stepsCost rest := hcost2
            _ ≤ c + stepsCost rest := by linarith
        · exact hnodup2.sublist hsuf.sublist
        · have : tail.length ≤ rest2.length := by
            rw [hsplit, List.length_append]
            omega
          simp only [List.length_cons]
          omega
      · refine ⟨(w, c) :: rest2, WalkSteps.cons he hwalk2, ?_, ?_, ?_, ?_⟩
        · rw [stepsEnd_cons, stepsEnd_cons, hend2]
        · rw [stepsCost_cons, stepsCost_cons]
          linarith
        · simp only [List.map_cons]
          exact List.nodup_cons.mpr ⟨by simpa using hv, by simpa using hnodup2⟩
        · simp only [List.length_cons]
          omega

/-- Every node found by `nodeById` is a key of the node dict. -/
theorem nodeById_isSome_mem {g : GraphData} {i : ℕ}
    (h : (nodeById g i).isSome) : i ∈ nodeIds g := by
  unfold nodeIds
  rw [List.mem_dedup]
  unfold nodeById at h
  rw [List.mem_map]
  by_contra hne
  push_neg at hne
  have : ∀ acc : Option Node, acc = none →
      g.nodes.foldl (fun acc n => if n.id = i then some n else acc) acc = none := by
    have hgen : ∀ (l : List Node), (∀ n ∈ l, n.id ≠ i) → ∀ acc : Option Node,
        acc = none → l.foldl (fun acc n => if n.id = i then some n else acc) acc = none := by
      intro l
      induction l with
      | nil => intro _ acc hacc; exact hacc
      | cons x rest ihl =>
        intro hl acc hacc
        rw [List.foldl_cons]
        refine ihl (fun n hn => hl n (List.mem_cons_of_mem x hn)) _ ?_
        rw [if_neg (hl x (List.mem_cons_self x rest)), hacc]
    exact hgen g.nodes (fun n hn h2 => hne n hn h2)
  rw [this none rfl] at h
  exact absurd h (by simp)

/-- A kept edge's endpoints are keys of the node dict (the filter looked
both up successfully). -/
theorem filteredEdges_endpoints_mem {g : GraphData} {avoid : Bool}
    {w : ObjectiveWeights} {u v : ℕ} {c : ℚ}
    (h : (u, v, c) ∈ filteredEdges g avoid w) :
    u ∈ nodeIds g ∧ v ∈ nodeIds g := by
  unfold filteredEdges at h
  rcases List.mem_filterMap.mp h with ⟨e, -, he⟩
  split at he
  · exact absurd he (by simp)
  · split at he
    next fn tn hfn htn =>
      split at he
      · exact absurd he (by simp)
      · split at he
        · exact absurd he (by simp)
        · simp only [Option.some.injEq, Prod.mk.injEq] at he
          obtain ⟨rfl, rfl, -⟩ := he
          exact ⟨nodeById_isSome_mem (by rw [hfn]; rfl),
            nodeById_isSome_mem (by rw [htn]; rfl)⟩
    next h2 => exact absurd he (by simp)

/-- Every node a filtered-edge walk visits is a key of the node dict. -/
theorem walk_nodes_mem {g : GraphData} {avoid : Bool} {w : ObjectiveWeights}
    {v : ℕ} {steps : List (ℕ × ℚ)}
    (h : WalkSteps (filteredEdges g avoid w) v steps) :
    ∀ x ∈ steps.map Prod.fst, x ∈ nodeIds g := by
  induction h with
  | nil => intro x hx; exact absurd hx (by simp)
  | @cons v w2 c rest he hw ih =>
    intro x hx
    rw [List.map_cons, List.mem_cons] at hx
    rcases hx with rfl | hx2
    · exact (filteredEdges_endpoints_mem he).2
    · exact ih x hx2

/-- A duplicate-free list of node-dict keys has at most `numNodes` entries. -/
theorem nodup_keys_length_le {g : GraphData} {l : List ℕ}
    (hn : l.Nodup) (hsub : ∀ x ∈ l, x ∈ nodeIds g) : l.length ≤ numNodes g := by
  have h1 : l.toFinset.card = l.length := List.toFinset_card_of_nodup hn
  have h2 : l.toFinset ⊆ (nodeIds g).toFinset := by
    intro x hx
    rw [List.mem_toFinset] at hx ⊢
    exact hsub x hx
  calc l.length = l.toFinset.card := h1.symm
    _ ≤ (nodeIds g).toFinset.card := Finset.card_le_card h2
    _ ≤ (nodeIds g).length := (nodeIds g).toFinset_card_le

/-- A non-empty walk ends at one of its visited nodes. -/
theorem stepsEnd_mem (v : ℕ) (steps : List (ℕ × ℚ)) (h : steps ≠ []) :
    stepsEnd v steps ∈ steps.map Prod.fst := by
  unfold stepsEnd
  rcases List.exists_cons_of_ne_nil h with ⟨p, rest, rfl⟩
  rw [List.map_cons, List.getLastD_cons]
  exact List.getLastD_mem_cons _ _

/-- The endpoint of any filtered-edge walk out of a node-dict key is a
node-dict key. -/
theorem walkCost_end_mem {g : GraphData} {avoid : Bool} {w : ObjectiveWeights}
    {start endId : ℕ} {q : ℚ} (hstart : start ∈ nodeIds g)
    (h : WalkCost (filteredEdges g avoid w) start endId q) : endId ∈ nodeIds g := by
  obtain ⟨steps, hw, hend, -⟩ := h
  rcases eq_or_ne steps [] with rfl | hne
  · rw [stepsEnd_nil] at hend
    exact hend ▸ hstart
  · exact hend ▸ walk_nodes_mem hw _ (stepsEnd_mem start steps hne)

/-- DP completeness: after `|V| - 1` rounds the table bounds every walk
cost out of the start node. -/
theorem dpIter_complete {g : GraphData} {avoid : Bool} {w : ObjectiveWeights}
    {start : ℕ} (hstart : start ∈ nodeIds g)
    (hnn : ∀ t ∈ filteredEdges g avoid w, 0 ≤ t.2.2) :
    ∀ (endId : ℕ) (q : ℚ), WalkCost (filteredEdges g avoid w) start endId q →
      ((dpRound (dpRelaxSeq (filteredEdges g avoid w)))^[numNodes g - 1]
          (fun v => if v = start then ((0 : ℚ) : WithTop ℚ) else ⊤,
           fun _ => (none : Option ℕ))).1 endId ≤ ((q : ℚ) : WithTop ℚ) := by
  intro endId q hwc
  obtain ⟨steps, hw, hend, hq⟩ := hwc
  obtain ⟨steps2, hw2, hend2, hcost2, hnodup2, -⟩ :=
    walk_dedup hnn steps.length start steps (le_refl _) hw
  have hsub : ∀ x ∈ start :: steps2.map Prod.fst, x ∈ nodeIds g := by
    intro x hx
    rcases List.mem_cons.mp hx with rfl | hx2
    · exact hstart
    · exact walk_nodes_mem hw2 x hx2
  have hlen : steps2.length ≤ numNodes g - 1 := by
    have := nodup_keys_length_le hnodup2 hsub
    simp only [List.length_cons, List.length_map] at this
    omega
  have hb := dpIter_progress (fun t => mem_dpRelaxSeq _ t) (numNodes g - 1)
    steps2 hw2 hlen
  rw [hend2, hend] at hb
  refine hb.trans ?_
  rw [WithTop.coe_le_coe, ← hq]
  exact hcost2

/-- The start row of the DP table never changes: distance `0`, no parent;
and a parent is recorded exactly when a node other than the start was
reached finitely. -/
def DpStartInv (start : ℕ) (st : (ℕ → WithTop ℚ) × (ℕ → Option ℕ)) : Prop :=
  st.1 start = ((0 : ℚ) : WithTop ℚ) ∧ st.2 start = none ∧
    ∀ v, v ≠ start → st.1 v ≠ ⊤ → st.2 v ≠ none

theorem relaxEntry_startInv {E : List (ℕ × ℕ × ℚ)} {start : ℕ}
    {st : (ℕ → WithTop ℚ) × (ℕ → Option ℕ)} {t : ℕ × ℕ × ℚ}
    (ht : t ∈ E) (hnn : ∀ t1 ∈ E, 0 ≤ t1.2.2)
    (hreach : ReachInvDP E start st) (h : DpStartInv start st) :
    DpStartInv start (relaxEntry st t) := by
  obtain ⟨h0, hpar, hrest⟩ := h
  unfold relaxEntry
  split
  next hcond =>
    obtain ⟨hne, hlt⟩ := hcond
    obtain ⟨q, hq⟩ := WithTop.ne_top_iff_exists.mp hne
    have hts : t.2.1 ≠ start := by
      intro heq
      rw [heq, h0, ← hq, ← WithTop.coe_add, WithTop.coe_lt_coe] at hlt
      have hq0 : 0 ≤ q := walkCost_nonneg hnn (hreach.1 t.1 q hq.symm)
      have hc0 : 0 ≤ t.2.2 := hnn t ht
      linarith
    refine ⟨?_, ?_, ?_⟩
    · dsimp only
      rw [Function.update_noteq (Ne.symm hts)]
      exact h0
    · dsimp only
      rw [Function.update_noteq (Ne.symm hts)]
      exact hpar
    · intro v hv hvne
      dsimp only at hvne ⊢
      by_cases hvt : v = t.2.1
      · subst hvt
        rw [Function.update_same]
        simp
      · rw [Function.update_noteq hvt] at hvne
        rw [Function.update_noteq hvt]
        exact hrest v hv hvne
  · exact ⟨h0, hpar, hrest⟩

theorem dpRound_startInv {E : List (ℕ × ℕ × ℚ)} {start : ℕ}
    (hnn : ∀ t1 ∈ E, 0 ≤ t1.2.2) :
    ∀ (seq : List (ℕ × ℕ × ℚ)) (st : (ℕ → WithTop ℚ) × (ℕ → Option ℕ)),
      (∀ t ∈ seq, t ∈ E) → ReachInvDP E start st → DpStartInv start st →
      DpStartInv start (dpRound seq st) := by
  intro seq
  induction seq with
  | nil => intro st _ _ h; exact h
  | cons t rest ih =>
    intro st hseq hreach h
    exact ih _ (fun t1 ht1 => hseq t1 (List.mem_cons_of_mem _ ht1))
      (relaxEntry_reach (hseq t (List.mem_cons_self _ _)) hreach)
      (relaxEntry_startInv (hseq t (List.mem_cons_self _ _)) hnn hreach h)

theorem dpIter_startInv {E : List (ℕ × ℕ × ℚ)} {start : ℕ}
    {seq : List (ℕ × ℕ × ℚ)} (hnn : ∀ t1 ∈ E, 0 ≤ t1.2.2)
    (hseq : ∀ t ∈ seq, t ∈ E) :
    ∀ (k : ℕ) (st : (ℕ → WithTop ℚ) × (ℕ → Option ℕ)),
      ReachInvDP E start st → DpStartInv start st →
      DpStartInv start ((dpRound seq)^[k] st) := by
  intro k
  induction k with
  | zero => intro st _ h; exact h
  | succ n ih =>
    intro st hreach h
    rw [Function.iterate_succ_apply]
    exact ih _ (dpRound_reach seq st hseq hreach)
      (dpRound_startInv hnn seq st hseq hreach h)

/-- Ghost parent invariant for the DP table: every recorded parent edge is
a kept edge whose relaxation justified (at least) the child's current
distance, with a timestamp certifying that equal-distance parent chains
strictly decrease in insertion time. -/
def DpParInv (g : GraphData) (avoid : Bool) (w : ObjectiveWeights) (τ : ℕ → ℕ)
    (st : (ℕ → WithTop ℚ) × (ℕ → Option ℕ)) : Prop :=
  ∀ v u, st.2 v = some u →
    ∃ c : ℚ, (u, v, c) ∈ filteredEdges g avoid w ∧ st.1 u ≠ ⊤ ∧
      st.1 u + (c : WithTop ℚ) ≤ st.1 v ∧
      (st.1 u + (c : WithTop ℚ) = st.1 v → τ u < τ v)

theorem relaxEntry_parInv {g : GraphData} {avoid : Bool} {w : ObjectiveWeights}
    {st : (ℕ → WithTop ℚ) × (ℕ → Option ℕ)} {t : ℕ × ℕ × ℚ} {τ : ℕ → ℕ}
    (ht : t ∈ filteredEdges g avoid w)
    (hnn : ∀ t1 ∈ filteredEdges g avoid w, 0 ≤ t1.2.2)
    (h : DpParInv g avoid w τ st) :
    ∃ τ2, DpParInv g avoid w τ2 (relaxEntry st t) := by
  rcases t with ⟨us, ws, cs⟩
  unfold relaxEntry
  split
  next hcond =>
    obtain ⟨hne, hlt⟩ := hcond
    dsimp only at hne hlt ⊢
    obtain ⟨q, hq⟩ := WithTop.ne_top_iff_exists.mp hne
    have husws : us ≠ ws := by
      intro heq
      rw [← heq, ← hq, ← WithTop.coe_add, WithTop.coe_lt_coe] at hlt
      have hcs0 := hnn _ ht
      dsimp only at hcs0
      linarith
    refine ⟨Function.update τ ws ((nodeIds g).toFinset.sup τ + 1), ?_⟩
    intro v u hpar
    dsimp only at hpar ⊢
    by_cases hvw : v = ws
    · subst hvw
      rw [Function.update_same] at hpar
      obtain rfl : us = u := Option.some_inj.mp hpar
      refine ⟨cs, ht, ?_, ?_, ?_⟩
      · rw [Function.update_noteq husws]
        exact hne
      · rw [Function.update_noteq husws, Function.update_same]
      · intro _
        rw [Function.update_noteq husws, Function.update_same]
        have hmem : us ∈ (nodeIds g).toFinset :=
          List.mem_toFinset.mpr (filteredEdges_endpoints_mem ht).1
        have hsup : τ us ≤ (nodeIds g).toFinset.sup τ := Finset.le_sup hmem
        omega
    · rw [Function.update_noteq hvw] at hpar
      obtain ⟨c, hc, hu, hle, heq⟩ := h v u hpar
      by_cases huw : u = ws
      · obtain ⟨qu, hqu⟩ := WithTop.ne_top_iff_exists.mp hu
        have hlt2 : st.1 us + (cs : WithTop ℚ) < st.1 u := by
          rw [huw]
          exact hlt
        have hstrict : st.1 us + (cs : WithTop ℚ) + (c : WithTop ℚ) < st.1 v := by
          refine lt_of_lt_of_le ?_ hle
          have hqcs : q + cs < qu := by
            rw [← hqu, ← hq, ← WithTop.coe_add, WithTop.coe_lt_coe] at hlt2
            exact hlt2
          rw [← hq, ← hqu, ← WithTop.coe_add, ← WithTop.coe_add, ← WithTop.coe_add,
            WithTop.coe_lt_coe]
          linarith
        refine ⟨c, hc, ?_, ?_, ?_⟩
        · rw [huw, Function.update_same, ← hq, ← WithTop.coe_add]
          exact WithTop.coe_ne_top
        · rw [huw, Function.update_same, Function.update_noteq hvw]
          exact le_of_lt hstrict
        · rw [huw, Function.update_same, Function.update_noteq hvw]
          intro heq2
          exact absurd heq2 (ne_of_lt hstrict)
      · refine ⟨c, hc, ?_, ?_, ?_⟩
        · rw [Function.update_noteq huw]
          exact hu
        · rw [Function.update_noteq huw, Function.update_noteq hvw]
          exact hle
        · rw [Function.update_noteq huw, Function.update_noteq hvw]
          intro heq2
          rw [Function.update_noteq huw, Function.update_noteq hvw]
          exact heq heq2
  · exact ⟨τ, h⟩

theorem dpRound_parInv {g : GraphData} {avoid : Bool} {w : ObjectiveWeights}
    (hnn : ∀ t1 ∈ filteredEdges g avoid w, 0 ≤ t1.2.2) :
    ∀ (seq : List (ℕ × ℕ × ℚ)) (st : (ℕ → WithTop ℚ) × (ℕ → Option ℕ)) (τ : ℕ → ℕ),
      (∀ t ∈ seq, t ∈ filteredEdges g avoid w) → DpParInv g avoid w τ st →
      ∃ τ2, DpParInv g avoid w τ2 (dpRound seq st) := by
  intro seq
  induction seq with
  | nil => intro st τ _ h; exact ⟨τ, h⟩
  | cons t rest ih =>
    intro st τ hseq h
    obtain ⟨τ1, h1⟩ := relaxEntry_parInv (hseq t (List.mem_cons_self _ _)) hnn h
    exact ih _ τ1 (fun t1 ht1 => hseq t1 (List.mem_cons_of_mem _ ht1)) h1

theorem dpIter_parInv {g : GraphData} {avoid : Bool} {w : ObjectiveWeights}
    {seq : List (ℕ × ℕ × ℚ)}
    (hnn : ∀ t1 ∈ filteredEdges g avoid w, 0 ≤ t1.2.2)
    (hseq : ∀ t ∈ seq, t ∈ filteredEdges g avoid w) :
    ∀ (k : ℕ) (st : (ℕ → WithTop ℚ) × (ℕ → Option ℕ)) (τ : ℕ → ℕ),
      DpParInv g avoid w τ st →
      ∃ τ2, DpParInv g avoid w τ2 ((dpRound seq)^[k] st) := by
  intro k
  induction k with
  | zero => intro st τ h; exact ⟨τ, h⟩
  | succ n ih =>
    intro st τ h
    rw [Function.iterate_succ_apply]
    obtain ⟨τ1, h1⟩ := dpRound_parInv hnn seq st τ hseq h
    exact ih _ τ1 h1

/-- Strict well-founded order certified by the ghost timestamps: parent
chains strictly decrease in `(distance, timestamp)`. -/
def dpLt (d : ℕ → WithTop ℚ) (τ : ℕ → ℕ) (x y : ℕ) : Prop :=
  d x < d y ∨ (d x = d y ∧ τ x < τ y)

instance (d : ℕ → WithTop ℚ) (τ : ℕ → ℕ) (x y : ℕ) : Decidable (dpLt d τ x y) := by
  unfold dpLt
  infer_instance

theorem dpLt_trans {d : ℕ → WithTop ℚ} {τ : ℕ → ℕ} {x y z : ℕ}
    (h1 : dpLt d τ x y) (h2 : dpLt d τ y z) : dpLt d τ x z := by
  rcases h1 with h1 | ⟨he1, ht1⟩
  · rcases h2 with h2 | ⟨he2, ht2⟩
    · exact Or.inl (h1.trans h2)
    · exact Or.inl (he2 ▸ h1)
  · rcases h2 with h2 | ⟨he2, ht2⟩
    · exact Or.inl (he1 ▸ h2)
    · exact Or.inr ⟨he1.trans he2, ht1.trans ht2⟩

theorem dpLt_irrefl (d : ℕ → WithTop ℚ) (τ : ℕ → ℕ) (x : ℕ) : ¬dpLt d τ x x := by
  rintro (h | ⟨-, h⟩)
  · exact lt_irrefl _ h
  · exact lt_irrefl _ h

/-- A recorded parent strictly precedes its child in the `(distance,
timestamp)` order, and is itself a node-dict key reached finitely. -/
theorem dpParInv_step {g : GraphData} {avoid : Bool} {w : ObjectiveWeights}
    {τ : ℕ → ℕ} {st : (ℕ → WithTop ℚ) × (ℕ → Option ℕ)}
    (hnn : ∀ t1 ∈ filteredEdges g avoid w, 0 ≤ t1.2.2)
    (h : DpParInv g avoid w τ st) {v u : ℕ} (hpar : st.2 v = some u) :
    dpLt st.1 τ u v ∧ u ∈ nodeIds g ∧ st.1 u ≠ ⊤ := by
  obtain ⟨c, hc, hu, hle, heq⟩ := h v u hpar
  have hc0 : 0 ≤ c := hnn _ hc
  have hmono : st.1 u ≤ st.1 v := by
    refine le_trans ?_ hle
    refine le_add_of_nonneg_right ?_
    exact_mod_cast hc0
  refine ⟨?_, (filteredEdges_endpoints_mem hc).1, hu⟩
  rcases lt_or_eq_of_le hmono with hlt | hd
  · exact Or.inl hlt
  · refine Or.inr ⟨hd, ?_⟩
    refine heq ?_
    obtain ⟨qu, hqu⟩ := WithTop.ne_top_iff_exists.mp hu
    have hle2 : st.1 u + (c : WithTop ℚ) ≤ st.1 u := hd ▸ hle
    rw [← hqu, ← WithTop.coe_add, WithTop.coe_le_coe] at hle2
    have hc00 : c = 0 := le_antisymm (by linarith) hc0
    rw [hc00, ← hd, ← hqu, ← WithTop.coe_add]
    norm_num

/-- Following parent pointers from any finitely-reached key lands on the
start node: each step strictly shrinks the set of keys below the current
node in the `(distance, timestamp)` order. -/
theorem buildPath_reaches_start {g : GraphData} {avoid : Bool}
    {w : ObjectiveWeights} {start : ℕ} {τ : ℕ → ℕ}
    {st : (ℕ → WithTop ℚ) × (ℕ → Option ℕ)}
    (hnn : ∀ t1 ∈ filteredEdges g avoid w, 0 ≤ t1.2.2)
    (hp : DpParInv g avoid w τ st) (hs : DpStartInv start st) :
    ∀ (fuel cur : ℕ), cur ∈ nodeIds g → st.1 cur ≠ ⊤ →
      ((nodeIds g).toFinset.filter (fun x => dpLt st.1 τ x cur)).card < fuel →
      (buildPath st.2 fuel cur).getLast? = some start := by
  intro fuel
  induction fuel with
  | zero => intro cur _ _ hcard; exact absurd hcard (by omega)
  | succ k ih =>
    intro cur hcur hfin hcard
    cases hparc : st.2 cur with
    | none =>
      have hcs : cur = start := by
        by_contra hne
        exact hs.2.2 cur hne hfin hparc
      rw [buildPath_parent_none hparc, hcs]
      rfl
    | some u =>
      obtain ⟨hstep, humem, hufin⟩ := dpParInv_step hnn hp hparc
      have hss : ((nodeIds g).toFinset.filter (fun x => dpLt st.1 τ x u)) ⊂
          ((nodeIds g).toFinset.filter (fun x => dpLt st.1 τ x cur)) := by
        refine Finset.ssubset_iff_of_subset ?_ |>.mpr ?_
        · intro x hx
          rw [Finset.mem_filter] at hx ⊢
          exact ⟨hx.1, dpLt_trans hx.2 hstep⟩
        · refine ⟨u, ?_, ?_⟩
          · rw [Finset.mem_filter]
            exact ⟨List.mem_toFinset.mpr humem, hstep⟩
          · rw [Finset.mem_filter]
            rintro ⟨-, habs⟩
            exact dpLt_irrefl _ _ _ habs
      have hcard2 : ((nodeIds g).toFinset.filter (fun x => dpLt st.1 τ x u)).card < k := by
        have := Finset.card_lt_card hss
        omega
      have htail := ih u humem hufin hcard2
      show (cur :: (match st.2 cur with
        | none => []
        | some p => buildPath st.2 k p)).getLast? = some start
      rw [hparc]
      have hne := buildPath_ne_nil st.2 k u
      show (cur :: buildPath st.2 k u).getLast? = some start
      cases hbp : buildPath st.2 k u with
      | nil => exact absurd hbp hne
      | cons b l =>
        rw [hbp] at htail
        rw [List.getLast?_cons_cons]
        exact htail

/-- The DP distance/parent table after the `|V| - 1` relaxation rounds. -/
def dpTable (g : GraphData) (start : ℕ) (avoid : Bool) (w : ObjectiveWeights) :
    (ℕ → WithTop ℚ) × (ℕ → Option ℕ) :=
  (dpRound (dpRelaxSeq (filteredEdges g avoid w)))^[numNodes g - 1]
    (fun v => if v = start then ((0 : ℚ) : WithTop ℚ) else ⊤,
     fun _ => (none : Option ℕ))

theorem dynamicProgramming_eq (g : GraphData) (start endId : ℕ) (avoid : Bool)
    (w : ObjectiveWeights)
    (hcond : (blockedAt g start || blockedAt g endId) = false) :
    dynamicProgramming g start endId avoid w =
      if ((buildPath (dpTable g start avoid w).2 (numNodes g + 1) endId).reverse.head? ≠
          some start)
      then ([start, endId], ⊤,
        (numNodes g - 1) * (dpRelaxSeq (filteredEdges g avoid w)).length)
      else ((buildPath (dpTable g start avoid w).2 (numNodes g + 1) endId).reverse,
        (dpTable g start avoid w).1 endId,
        (numNodes g - 1) * (dpRelaxSeq (filteredEdges g avoid w)).length) := by
  unfold dynamicProgramming dpTable
  rw [hcond]
  simp only [Bool.false_eq_true, if_false]

/-- DP optimality and soundness of the returned cost: under non-negative
kept costs, unblocked endpoints, and reachability, the returned cost is
the cost of an actual filtered walk and lower-bounds every such walk. -/
theorem dynamicProgramming_opt (g : GraphData) (start endId : ℕ) (avoid : Bool)
    (w : ObjectiveWeights)
    (hb1 : blockedAt g start = false) (hb2 : blockedAt g endId = false)
    (hstart : start ∈ nodeIds g)
    (hnn : ∀ t ∈ filteredEdges g avoid w, 0 ≤ t.2.2)
    (hreach : HasWalk (filteredEdges g avoid w) start endId) :
    (∀ q : ℚ, WalkCost (filteredEdges g avoid w) start endId q →
        (dynamicProgramming g start endId avoid w).2.1 ≤ (q : WithTop ℚ)) ∧
      ∃ q : ℚ, (dynamicProgramming g start endId avoid w).2.1 = (q : WithTop ℚ) ∧
        WalkCost (filteredEdges g avoid w) start endId q := by
  obtain ⟨q0, hw0⟩ := hreach
  have hcond : (blockedAt g start || blockedAt g endId) = false := by
    rw [hb1, hb2]
    rfl
  have hseq : ∀ t ∈ dpRelaxSeq (filteredEdges g avoid w),
      t ∈ filteredEdges g avoid w := fun t ht => (mem_dpRelaxSeq _ t).mp ht
  have hinv0 : ReachInvDP (filteredEdges g avoid w) start
      (fun v => if v = start then ((0 : ℚ) : WithTop ℚ) else ⊤,
       fun _ => (none : Option ℕ)) := by
    constructor
    · intro v q hv
      dsimp only at hv
      by_cases hvs : v = start
      · subst hvs
        rw [if_pos rfl] at hv
        have : (0 : ℚ) = q := by exact_mod_cast hv
        exact this ▸ walkCost_nil _ v
      · rw [if_neg hvs] at hv
        exact absurd hv.symm WithTop.coe_ne_top
    · intro v hv
      exact absurd rfl hv
  have hstart0 : DpStartInv start
      (fun v => if v = start then ((0 : ℚ) : WithTop ℚ) else ⊤,
       fun _ => (none : Option ℕ)) := by
    refine ⟨by dsimp only; rw [if_pos rfl], rfl, ?_⟩
    intro v hv hfin
    exact absurd (by dsimp only; rw [if_neg hv]) hfin
  have hpar0 : DpParInv g avoid w (fun _ => 0)
      (fun v => if v = start then ((0 : ℚ) : WithTop ℚ) else ⊤,
       fun _ => (none : Option ℕ)) := by
    intro v u hpar
    exact absurd hpar (by simp)
  have hsound : ∀ v (q : ℚ), (dpTable g start avoid w).1 v = (q : WithTop ℚ) →
      WalkCost (filteredEdges g avoid w) start v q := by
    have := dpIter_reach hseq (numNodes g - 1) _ hinv0
    exact this.1
  have hstartF : DpStartInv start (dpTable g start avoid w) :=
    dpIter_startInv hnn hseq (numNodes g - 1) _ hinv0 hstart0
  obtain ⟨τ, hparF⟩ : ∃ τ, DpParInv g avoid w τ (dpTable g start avoid w) :=
    dpIter_parInv hnn hseq (numNodes g - 1) _ (fun _ => 0) hpar0
  have hcomp : ∀ q : ℚ, WalkCost (filteredEdges g avoid w) start endId q →
      (dpTable g start avoid w).1 endId ≤ (q : WithTop ℚ) := by
    intro q hq
    exact dpIter_complete hstart hnn endId q hq
  have hfinend : (dpTable g start avoid w).1 endId ≠ ⊤ :=
    ne_top_of_le_ne_top WithTop.coe_ne_top (hcomp q0 hw0)
  have hend_mem : endId ∈ nodeIds g := walkCost_end_mem hstart hw0
  have hcb : ((nodeIds g).toFinset.filter
      (fun x => dpLt (dpTable g start avoid w).1 τ x endId)).card < numNodes g + 1 := by
    have h1 := Finset.card_filter_le (nodeIds g).toFinset
      (fun x => dpLt (dpTable g start avoid w).1 τ x endId)
    have h2 := (nodeIds g).toFinset_card_le
    unfold numNodes
    omega
  have hchain := buildPath_reaches_start hnn hparF hstartF (numNodes g + 1) endId
    hend_mem hfinend hcb
  have hhead : ((buildPath (dpTable g start avoid w).2 (numNodes g + 1)
      endId).reverse).head? = some start := by
    rw [List.head?_reverse]
    exact hchain
  have hres : dynamicProgramming g start endId avoid w =
      ((buildPath (dpTable g start avoid w).2 (numNodes g + 1) endId).reverse,
        (dpTable g start avoid w).1 endId,
        (numNodes g - 1) * (dpRelaxSeq (filteredEdges g avoid w)).length) := by
    rw [dynamicProgramming_eq g start endId avoid w hcond, if_neg]
    intro hcontra
    exact hcontra hhead
  rw [hres]
  obtain ⟨qF, hqF⟩ := WithTop.ne_top_iff_exists.mp hfinend
  exact ⟨fun q hq => hcomp q hq, qF, hqF.symm, hsound endId qF hqF.symm⟩

/-- Dijkstra optimality and soundness of the returned cost under the same
hypotheses. -/
theorem dijkstraRun_opt (g : GraphData) (start endId : ℕ) (avoid : Bool)
    (w : ObjectiveWeights) (fuel : ℕ) (r : List ℕ × WithTop ℚ × ℕ)
    (hb1 : blockedAt g start = false) (hb2 : blockedAt g endId = false)
    (hnn : ∀ t ∈ filteredEdges g avoid w, 0 ≤ t.2.2)
    (hreach : HasWalk (filteredEdges g avoid w) start endId)
    (hrun : dijkstraRun g start endId avoid w fuel = some r) :
    (∀ q : ℚ, WalkCost (filteredEdges g avoid w) start endId q →
        r.2.1 ≤ (q : WithTop ℚ)) ∧
      ∃ q : ℚ, r.2.1 = (q : WithTop ℚ) ∧
        WalkCost (filteredEdges g avoid w) start endId q := by
  obtain ⟨q0, hw0⟩ := hreach
  have hcond : (blockedAt g start || blockedAt g endId) = false := by
    rw [hb1, hb2]
    rfl
  unfold dijkstraRun at hrun
  rw [hcond] at hrun
  simp only [Bool.false_eq_true, if_false, Option.map_eq_some'] at hrun
  obtain ⟨st', hloop, hst'⟩ := hrun
  have hinv0 : DijkOptInv (filteredEdges g avoid w) start []
      ⟨fun v => if v = start then ((0 : ℚ) : WithTop ℚ) else ⊤, fun _ => none,
        [(0, start)], 0⟩ := by
    refine ⟨⟨?_, ?_, ?_⟩, ?_, ?_, ?_, ?_, ?_, ?_⟩
    · intro v q hv
      dsimp only at hv
      by_cases hvs : v = start
      · subst hvs
        rw [if_pos rfl] at hv
        have : (0 : ℚ) = q := by exact_mod_cast hv
        exact this ▸ walkCost_nil _ v
      · rw [if_neg hvs] at hv
        exact absurd hv.symm WithTop.coe_ne_top
    · intro p hp
      rcases List.mem_singleton.mp hp with rfl
      exact walkCost_nil _ start
    · intro v hv
      exact absurd rfl hv
    · intro p hp
      rcases List.mem_singleton.mp hp with rfl
      dsimp only
      rw [if_pos rfl]
    · intro v hv
      exact absurd hv (List.not_mem_nil v)
    · intro u hu
      exact absurd hu (List.not_mem_nil u)
    · intro v hv hfin
      dsimp only at hfin ⊢
      by_cases hvs : v = start
      · subst hvs
        rw [if_pos rfl]
        exact ⟨0, rfl, List.mem_singleton.mpr rfl⟩
      · rw [if_neg hvs] at hfin
        exact absurd rfl hfin
    · dsimp only
      rw [if_pos rfl]
    · exact Or.inr (List.mem_singleton.mpr rfl)
  obtain ⟨hopt, hsound⟩ := dijkLoop_opt hnn fuel [] _ st' hinv0 hloop
  have hfin : st'.dist endId ≠ ⊤ :=
    ne_top_of_le_ne_top WithTop.coe_ne_top (hopt q0 hw0)
  obtain ⟨qF, hqF⟩ := WithTop.ne_top_iff_exists.mp hfin
  rw [← hst']
  exact ⟨fun q hq => hopt q hq, qF, hqF.symm, hsound endId qF hqF.symm⟩

/-- Claim C4: on a graph whose kept (weighted) edge costs are
non-negative, with the same hazard setting and objective weights and a
reachable end node, any terminating Dijkstra run returns the same path
cost as the Bellman-Ford/DP solver: both equal the minimum filtered-walk
cost from start to end. -/
theorem dijkstra_dp_cost_eq (g : GraphData) (start endId : ℕ) (avoid : Bool)
    (w : ObjectiveWeights) (fuel : ℕ) (r : List ℕ × WithTop ℚ × ℕ)
    (hstart : start ∈ nodeIds g)
    (hnn : ∀ t ∈ filteredEdges g avoid w, 0 ≤ t.2.2)
    (hreach : HasWalk (filteredEdges g avoid w) start endId)
    (hdij : dijkstraRun g start endId avoid w fuel = some r) :
    r.2.1 = (dynamicProgramming g start endId avoid w).2.1 := by
  by_cases hB : (blockedAt g start || blockedAt g endId) = true
  · unfold dijkstraRun at hdij
    rw [if_pos hB] at hdij
    obtain rfl := Option.some_inj.mp hdij
    unfold dynamicProgramming
    rw [if_pos hB]
  · have hb : (blockedAt g start = false) ∧ (blockedAt g endId = false) := by
      rcases Bool.or_eq_false_iff.mp (Bool.not_eq_true _ |>.mp hB) with ⟨h1, h2⟩
      exact ⟨h1, h2⟩
    obtain ⟨hoptD, qD, hqD, hwD⟩ :=
      dijkstraRun_opt g start endId avoid w fuel r hb.1 hb.2 hnn hreach hdij
    obtain ⟨hoptP, qP, hqP, hwP⟩ :=
      dynamicProgramming_opt g start endId avoid w hb.1 hb.2 hstart hnn hreach
    refine le_antisymm ?_ ?_
    · rw [hqP]
      exact hoptD qP hwP
    · rw [hqD]
      exact hoptP qD hwD

/-- Two nodes joined by a unit-cost edge, for exercising C4 concretely. -/
def twoNodeGraph : GraphData :=
  ⟨[{ id := 0 }, { id := 1 }], [{ src := 0, dst := 1, cost := 1 }]⟩

/-- Witness for C4 on `twoNodeGraph`: Dijkstra terminates with cost 1 and
the DP solver reports the same cost. -/
theorem dijkstra_dp_cost_eq_witness :
    (((1 : ℚ) : WithTop ℚ)) =
      (dynamicProgramming twoNodeGraph 0 1 false unitObjective).2.1 := by
  have hE : filteredEdges twoNodeGraph false unitObjective = [(0, 1, 1)] := by
    norm_num [filteredEdges, twoNodeGraph, List.filterMap_cons, nodeById,
      List.foldl_cons, List.foldl_nil, calculateEdgeCost, unitObjective]
  have hN : numNodes twoNodeGraph = 2 := by decide
  have hnn : ∀ t ∈ filteredEdges twoNodeGraph false unitObjective, 0 ≤ t.2.2 := by
    rw [hE]
    intro t ht
    rcases List.mem_singleton.mp ht with rfl
    norm_num
  have hreach : HasWalk (filteredEdges twoNodeGraph false unitObjective) 0 1 := by
    refine ⟨1, [(1, 1)], ?_, rfl, by norm_num [stepsCost]⟩
    exact WalkSteps.cons (by rw [hE]; exact List.mem_singleton.mpr rfl)
      (WalkSteps.nil 1)
  have hrun : dijkstraRun twoNodeGraph 0 1 false unitObjective 10 =
      some ([0, 1], ((1 : ℚ) : WithTop ℚ), 2) := by
    unfold dijkstraRun
    rw [if_neg (by decide), hE, hN]
    norm_num [dijkLoop, dijkRelax, dijkRelaxStep, popMinBy, pairLeB, adjOf,
      buildPath, Function.update_apply]
  exact dijkstra_dp_cost_eq twoNodeGraph 0 1 false unitObjective 10
    ([0, 1], ((1 : ℚ) : WithTop ℚ), 2) (by decide) hnn hreach hrun

/-! ## A* g-score soundness (for claim C5) -/

/-- Every finite g-score is the cost of an actual filtered walk. -/
def GScoreInvA (E : List (ℕ × ℕ × ℚ)) (start : ℕ) (st : AstarState) : Prop :=
  ∀ v (q : ℚ), st.gScore v = (q : WithTop ℚ) → WalkCost E start v q

theorem astarRelaxStep_gsound {E : List (ℕ × ℕ × ℚ)} {start cur : ℕ}
    {hfun : ℕ → ℚ} {st : AstarState} {p : ℕ × ℚ}
    (hp : (cur, p.1, p.2) ∈ E) (h : GScoreInvA E start st) :
    GScoreInvA E start (astarRelaxStep hfun cur st p) := by
  unfold astarRelaxStep
  split
  · exact h
  · dsimp only
    split
    next hlt =>
      intro v q hv
      dsimp only at hv
      by_cases hvp : v = p.1
      · subst hvp
        rw [Function.update_same] at hv
        have hne : st.gScore cur ≠ ⊤ := by
          intro htop
          rw [htop] at hv
          rw [top_add] at hv
          exact absurd hv.symm WithTop.coe_ne_top
        obtain ⟨qc, hqc⟩ := WithTop.ne_top_iff_exists.mp hne
        rw [← hqc, ← WithTop.coe_add] at hv
        have hq : qc + p.2 = q := by exact_mod_cast hv
        exact hq ▸ walkCost_extend (h cur qc hqc.symm) hp
      · rw [Function.update_noteq hvp] at hv
        exact h v q hv
    · exact h

theorem astarRelax_gsound {E : List (ℕ × ℕ × ℚ)} {start cur : ℕ} {hfun : ℕ → ℚ} :
    ∀ (l : List (ℕ × ℚ)) (st : AstarState), (∀ p ∈ l, (cur, p.1, p.2) ∈ E) →
      GScoreInvA E start st →
      GScoreInvA E start (l.foldl (astarRelaxStep hfun cur) st) := by
  intro l
  induction l with
  | nil => intro st _ h; exact h
  | cons p rest ih =>
    intro st hl h
    exact ih _ (fun p1 hp1 => hl p1 (List.mem_cons_of_mem _ hp1))
      (astarRelaxStep_gsound (hl p (List.mem_cons_self _ _)) h)

/-- Whatever the A* loop returns, a finite returned cost is the cost of an
actual filtered walk to the end node. -/
theorem astarLoop_gsound {g : GraphData} {E : List (ℕ × ℕ × ℚ)}
    {start endId : ℕ} {hfun : ℕ → ℚ} :
    ∀ (fuel : ℕ) (st : AstarState) (r : List ℕ × WithTop ℚ × ℕ),
      GScoreInvA E start st →
      astarLoop (adjOf E) hfun g start endId fuel st = some r →
      ∀ q : ℚ, r.2.1 = (q : WithTop ℚ) → WalkCost E start endId q := by
  intro fuel
  induction fuel with
  | zero => intro st r _ h; cases h
  | succ k ih =>
    intro st r hinv hrun
    unfold astarLoop at hrun
    cases hpop : popMinBy tripLeB st.openSet with
    | none =>
      rw [hpop] at hrun
      obtain rfl := Option.some_inj.mp hrun
      intro q hq
      exact absurd hq.symm WithTop.coe_ne_top
    | some pr =>
      rcases pr with ⟨⟨f, cnt, cur⟩, rest⟩
      rw [hpop] at hrun
      simp only at hrun
      have hinv1 : GScoreInvA E start
          { st with openSet := rest, eval := st.eval + 1 } := hinv
      split at hrun
      · exact ih _ r hinv1 hrun
      · split at hrun
        next hcur =>
          obtain rfl := Option.some_inj.mp hrun
          subst hcur
          intro q hq
          exact hinv _ q hq
        · refine ih _ r ?_ hrun
          refine astarRelax_gsound _ _ ?_ ?_
          · intro p hp
            exact mem_adjOf.mp hp
          · exact hinv

/-- Any finite cost A* returns is realised by a filtered walk. -/
theorem astarRun_gsound (g : GraphData) (start endId : ℕ) (avoid : Bool)
    (w : ObjectiveWeights) (hfun : ℕ → ℚ) (fuel : ℕ) (r : List ℕ × WithTop ℚ × ℕ)
    (hrun : astarRun g start endId avoid w hfun fuel = some r) :
    ∀ q : ℚ, r.2.1 = (q : WithTop ℚ) →
      WalkCost (filteredEdges g avoid w) start endId q := by
  unfold astarRun at hrun
  split at hrun
  · obtain rfl := Option.some_inj.mp hrun
    intro q hq
    exact absurd hq.symm WithTop.coe_ne_top
  · refine astarLoop_gsound fuel _ r ?_ hrun
    intro v q hv
    dsimp only at hv
    by_cases hvs : v = start
    · subst hvs
      rw [if_pos rfl] at hv
      have : (0 : ℚ) = q := by exact_mod_cast hv
      exact this ▸ walkCost_nil _ v
    · rw [if_neg hvs] at hv
      exact absurd hv.symm WithTop.coe_ne_top

/-- Claim C5 (amended): in the claim's special case — every kept edge
cost equal to `1` (unit weights under `distance_weight = 1` and zero
risk/hazard/congestion weights) and the source's Euclidean heuristic —
A*'s returned cost never beats Dijkstra's, which is exact; but the two
need not be equal, because the heuristic is computed from node
coordinates, which the unit edge weights do not constrain, so it can
overestimate and is not admissible in general
(`astar_heuristic_overestimates_cex`). -/
theorem astar_cost_ge_dijkstra (g : GraphData) (start endId : ℕ) (avoid : Bool)
    (w : ObjectiveWeights) (hfun : ℕ → ℚ) (fuelA fuelD : ℕ)
    (rA rD : List ℕ × WithTop ℚ × ℕ)
    (hunit : ∀ t ∈ filteredEdges g avoid w, t.2.2 = 1)
    (heu : EuclidHeuristic g endId hfun)
    (hstart : start ∈ nodeIds g)
    (hreach : HasWalk (filteredEdges g avoid w) start endId)
    (hA : astarRun g start endId avoid w hfun fuelA = some rA)
    (hD : dijkstraRun g start endId avoid w fuelD = some rD) :
    rD.2.1 ≤ rA.2.1 := by
  have hnn : ∀ t ∈ filteredEdges g avoid w, 0 ≤ t.2.2 := by
    intro t ht
    rw [hunit t ht]
    norm_num
  by_cases hB : (blockedAt g start || blockedAt g endId) = true
  · unfold dijkstraRun at hD
    rw [if_pos hB] at hD
    obtain rfl := Option.some_inj.mp hD
    unfold astarRun at hA
    rw [if_pos hB] at hA
    obtain rfl := Option.some_inj.mp hA
    exact le_refl _
  · have hb : (blockedAt g start = false) ∧ (blockedAt g endId = false) := by
      rcases Bool.or_eq_false_iff.mp (Bool.not_eq_true _ |>.mp hB) with ⟨h1, h2⟩
      exact ⟨h1, h2⟩
    obtain ⟨hoptD, -⟩ :=
      dijkstraRun_opt g start endId avoid w fuelD rD hb.1 hb.2 hnn hreach hD
    cases hAv : rA.2.1 with
    | top => exact le_top
    | coe q =>
      exact hoptD q (astarRun_gsound g start endId avoid w hfun fuelA rA hA q hAv)

/-- Five nodes on the x-axis with unit-cost edges `0→1, 0→2, 2→3, 3→9,
1→9`.  Coordinates place node 1 far from the end node 9 (at the origin)
although the walk `0→1→9` has only two unit edges, so the Euclidean
heuristic overestimates the true remaining cost through node 1. -/
def astarCexGraph : GraphData :=
  ⟨[{ id := 0, x := 3 }, { id := 1, x := 100 }, { id := 2, x := 2 },
    { id := 3, x := 1 }, { id := 9, x := 0 }],
   [{ src := 0, dst := 1, cost := 1 }, { src := 0, dst := 2, cost := 1 },
    { src := 2, dst := 3, cost := 1 }, { src := 3, dst := 9, cost := 1 },
    { src := 1, dst := 9, cost := 1 }]⟩

/-- The exact Euclidean distance to node 9 on `astarCexGraph` (all nodes
sit on the x-axis, so it is rational). -/
def hfunCex (i : ℕ) : ℚ :=
  if i = 0 then 3 else if i = 1 then 100 else if i = 2 then 2
  else if i = 3 then 1 else 0

theorem astarCex_filtered :
    filteredEdges astarCexGraph false unitObjective =
      [(0, 1, 1), (0, 2, 1), (2, 3, 1), (3, 9, 1), (1, 9, 1)] := by
  norm_num [filteredEdges, astarCexGraph, List.filterMap_cons, nodeById,
    List.foldl_cons, List.foldl_nil, calculateEdgeCost, unitObjective]

theorem hfunCex_euclid : EuclidHeuristic astarCexGraph 9 hfunCex := by
  intro i
  by_cases h0 : i = 0
  · subst h0
    refine ⟨by norm_num [hfunCex], ?_⟩
    norm_num [hfunCex, coordsOf, nodeById, astarCexGraph, List.foldl_cons,
      List.foldl_nil]
  by_cases h1 : i = 1
  · subst h1
    refine ⟨by norm_num [hfunCex], ?_⟩
    norm_num [hfunCex, coordsOf, nodeById, astarCexGraph, List.foldl_cons,
      List.foldl_nil]
  by_cases h2 : i = 2
  · subst h2
    refine ⟨by norm_num [hfunCex], ?_⟩
    norm_num [hfunCex, coordsOf, nodeById, astarCexGraph, List.foldl_cons,
      List.foldl_nil]
  by_cases h3 : i = 3
  · subst h3
    refine ⟨by norm_num [hfunCex], ?_⟩
    norm_num [hfunCex, coordsOf, nodeById, astarCexGraph, List.foldl_cons,
      List.foldl_nil]
  by_cases h9 : i = 9
  · subst h9
    refine ⟨by norm_num [hfunCex], ?_⟩
    norm_num [hfunCex, coordsOf, nodeById, astarCexGraph, List.foldl_cons,
      List.foldl_nil]
  have hn : nodeById astarCexGraph i = none := by
    cases hnb : nodeById astarCexGraph i with
    | none => rfl
    | some n =>
      have hmem : i ∈ nodeIds astarCexGraph := nodeById_isSome_mem (by rw [hnb]; rfl)
      rw [show nodeIds astarCexGraph = [0, 1, 2, 3, 9] from by decide] at hmem
      simp only [List.mem_cons, List.not_mem_nil, or_false] at hmem
      rcases hmem with rfl | rfl | rfl | rfl | rfl
      · exact absurd rfl h0
      · exact absurd rfl h1
      · exact absurd rfl h2
      · exact absurd rfl h3
      · exact absurd rfl h9
  have hci : coordsOf astarCexGraph i = (0, 0) := by
    unfold coordsOf
    rw [hn]
    rfl
  refine ⟨by norm_num [hfunCex, h0, h1, h2, h3], ?_⟩
  rw [hci]
  norm_num [hfunCex, h0, h1, h2, h3, coordsOf, nodeById, astarCexGraph,
    List.foldl_cons, List.foldl_nil]

set_option maxHeartbeats 2000000 in
theorem astarCex_run :
    astarRun astarCexGraph 0 9 false unitObjective hfunCex 10 =
      some ([0, 2, 3, 9], ((3 : ℚ) : WithTop ℚ), 4) := by
  have hN5 : numNodes astarCexGraph + 1 = 6 := by decide
  have h1T : (1 : WithTop ℚ) < ⊤ := by decide
  have h2T : (2 : WithTop ℚ) < ⊤ := by decide
  have h3T : (3 : WithTop ℚ) < ⊤ := by decide
  have ha1 : (0 : WithTop ℚ) + 1 = 1 := by norm_num
  have ha2 : (1 : WithTop ℚ) + 100 = 101 := by norm_num
  have ha3 : (1 : WithTop ℚ) + 2 = 3 := by norm_num
  have ha4 : (1 : WithTop ℚ) + 1 = 2 := by norm_num
  have ha5 : (2 : WithTop ℚ) + 1 = 3 := by norm_num
  have ha6 : (3 : WithTop ℚ) + 0 = 3 := by norm_num
  have hc1 : ¬((101 : WithTop ℚ) < 3) := by decide
  have hc2 : ¬((101 : WithTop ℚ) = 3) := by decide
  unfold astarRun
  rw [if_neg (by decide), astarCex_filtered]
  norm_num [astarLoop, astarRelax, astarRelaxStep, popMinBy, tripLeB, adjOf,
    buildPath, Function.update_apply, hfunCex, hN5, lt_self_iff_false,
    h1T, h2T, h3T, ha1, ha2, ha3, ha4, ha5, ha6, hc1, hc2]

set_option maxHeartbeats 2000000 in
theorem dijkCex_run :
    dijkstraRun astarCexGraph 0 9 false unitObjective 10 =
      some ([0, 1, 9], ((2 : ℚ) : WithTop ℚ), 5) := by
  have h1T : (1 : WithTop ℚ) < ⊤ := by decide
  have h2T : (2 : WithTop ℚ) < ⊤ := by decide
  have h3T : (3 : WithTop ℚ) < ⊤ := by decide
  have h32 : ¬((3 : WithTop ℚ) < 2) := by decide
  have h21 : ¬((2 : WithTop ℚ) < 1) := by decide
  unfold dijkstraRun
  rw [if_neg (by decide), astarCex_filtered,
    show numNodes astarCexGraph = 5 from by decide]
  norm_num [dijkLoop, dijkRelax, dijkRelaxStep, popMinBy, pairLeB, adjOf,
    buildPath, Function.update_apply, lt_self_iff_false, h1T, h2T, h3T, h32, h21]

/-- Claim C5 counterexample: on `astarCexGraph` every kept edge cost is 1
under the claim's objective weights and `hfunCex` is exactly the source's
Euclidean heuristic toward node 9, yet A* returns cost 3 while Dijkstra
returns the optimum 2: unit edge weights do not constrain coordinates, so
the heuristic overestimates through node 1 and is not admissible. -/
theorem astar_heuristic_overestimates_cex :
    (∀ t ∈ filteredEdges astarCexGraph false unitObjective, t.2.2 = 1) ∧
      EuclidHeuristic astarCexGraph 9 hfunCex ∧
      astarRun astarCexGraph 0 9 false unitObjective hfunCex 10 =
        some ([0, 2, 3, 9], ((3 : ℚ) : WithTop ℚ), 4) ∧
      dijkstraRun astarCexGraph 0 9 false unitObjective 10 =
        some ([0, 1, 9], ((2 : ℚ) : WithTop ℚ), 5) ∧
      ((3 : ℚ) : WithTop ℚ) ≠ ((2 : ℚ) : WithTop ℚ) := by
  refine ⟨?_, hfunCex_euclid, astarCex_run, dijkCex_run, by decide⟩
  rw [astarCex_filtered]
  decide

/-- Witness for the amended C5 theorem on `twoNodeGraph` with the (exact)
all-zero Euclidean heuristic: both solvers return cost 1 and the
inequality holds. -/
theorem astar_cost_ge_dijkstra_witness :
    (∀ t ∈ filteredEdges twoNodeGraph false unitObjective, t.2.2 = 1) ∧
      EuclidHeuristic twoNodeGraph 1 (fun _ => 0) ∧
      ((([0, 1], ((1 : ℚ) : WithTop ℚ), 2) : List ℕ × WithTop ℚ × ℕ)).2.1 ≤
        ((([0, 1], ((1 : ℚ) : WithTop ℚ), 2) : List ℕ × WithTop ℚ × ℕ)).2.1 := by
  have hE : filteredEdges twoNodeGraph false unitObjective = [(0, 1, 1)] := by
    norm_num [filteredEdges, twoNodeGraph, List.filterMap_cons, nodeById,
      List.foldl_cons, List.foldl_nil, calculateEdgeCost, unitObjective]
  have hunit : ∀ t ∈ filteredEdges twoNodeGraph false unitObjective, t.2.2 = 1 := by
    rw [hE]
    decide
  have hall : ∀ j, coordsOf twoNodeGraph j = (0, 0) := by
    intro j
    by_cases h0 : j = 0
    · subst h0
      rfl
    by_cases h1 : j = 1
    · subst h1
      rfl
    have hn : nodeById twoNodeGraph j = none := by
      cases hnb : nodeById twoNodeGraph j with
      | none => rfl
      | some n =>
        have hmem : j ∈ nodeIds twoNodeGraph := nodeById_isSome_mem (by rw [hnb]; rfl)
        rw [show nodeIds twoNodeGraph = [0, 1] from by decide] at hmem
        simp only [List.mem_cons, List.not_mem_nil, or_false] at hmem
        rcases hmem with rfl | rfl
        · exact absurd rfl h0
        · exact absurd rfl h1
    unfold coordsOf
    rw [hn]
    rfl
  have heu : EuclidHeuristic twoNodeGraph 1 (fun _ => 0) := by
    intro i
    rw [hall i, hall 1]
    norm_num
  have hreach : HasWalk (filteredEdges twoNodeGraph false unitObjective) 0 1 := by
    refine ⟨1, [(1, 1)], ?_, rfl, by norm_num [stepsCost]⟩
    exact WalkSteps.cons (by rw [hE]; exact List.mem_singleton.mpr rfl)
      (WalkSteps.nil 1)
  have h1T : (1 : WithTop ℚ) < ⊤ := by decide
  have ha1 : (0 : WithTop ℚ) + 1 = 1 := by norm_num
  have ha2 : (1 : WithTop ℚ) + 0 = 1 := by norm_num
  have hrunA : astarRun twoNodeGraph 0 1 false unitObjective (fun _ => 0) 10 =
      some ([0, 1], ((1 : ℚ) : WithTop ℚ), 2) := by
    have hN2 : numNodes twoNodeGraph + 1 = 3 := by decide
    unfold astarRun
    rw [if_neg (by decide), hE]
    norm_num [astarLoop, astarRelax, astarRelaxStep, popMinBy, tripLeB, adjOf,
      buildPath, Function.update_apply, hN2, lt_self_iff_false, h1T, ha1, ha2]
  have hrunD : dijkstraRun twoNodeGraph 0 1 false unitObjective 10 =
      some ([0, 1], ((1 : ℚ) : WithTop ℚ), 2) := by
    unfold dijkstraRun
    rw [if_neg (by decide), hE, show numNodes twoNodeGraph = 2 from by decide]
    norm_num [dijkLoop, dijkRelax, dijkRelaxStep, popMinBy, pairLeB, adjOf,
      buildPath, Function.update_apply, lt_self_iff_false, h1T]
  refine ⟨hunit, heu, ?_⟩
  exact astar_cost_ge_dijkstra twoNodeGraph 0 1 false unitObjective (fun _ => 0)
    10 10 ([0, 1], ((1 : ℚ) : WithTop ℚ), 2) ([0, 1], ((1 : ℚ) : WithTop ℚ), 2)
    hunit heu (by decide) hreach hrunA hrunD
